import Mathlib

/-!
# Verification of the factoriocalc pipeline

A shallow embedding, in Lean 4, of the parts of the `factoriocalc` source
(Python 2) that the specification's claims are about:

* `util.py` — `is_liquid`, `line_limit`;
* `beltmanager.py` — the bus model (`Line`, `Bus`), `line_take`, `add_line`,
  `find_lines`, `add_step`, `compact`;
* `processor.py` — `Processor.match_score`, `Processor.find_processor`;
* `datafile.py` — `calc_mods`, `resolve_recipe`;
* `calculator.py` — `Calculator.solve`;
* `layouter.py` — `layout_step` padding arithmetic and the off-ramp choice in
  `layout_in_outs`;
* `blueprint.py` — `encode`, `encode_entity`, `lossy_decode`.

All quantities are exact rationals (`ℚ`), as in the source (Python `Fraction`).
Python code that can raise is embedded as `Except String` with the raised
exception's class recorded in the message.  Python dicts whose iteration order
is never observed are embedded as association lists.
-/

namespace Factoriocalc

/-! ## util.py -/

/-- The fixed liquid set (`util.is_liquid`). -/
def is_liquid (item : String) : Bool :=
  item ∈ [
    "petroleum", "light oil", "heavy oil", "sulfuric acid", "lubricant", "crude oil", "water",
    "oil products", "light oil cracking", "heavy oil cracking"
  ]

/-- Belt tier, the three values `line_limit` accepts (`"blue" | "red" | "yellow"`).
Embedding the argument as an enumeration makes the `raise ValueError("Bad belt type")`
branch unrepresentable; all callers in the source pass one of these three strings. -/
inductive BeltType where
  | blue
  | red
  | yellow
deriving Repr, DecidableEq

/-- `util.line_limit`: per-line throughput cap.  Liquids cap at 17/tick × 60 ticks/sec. -/
def line_limit (item : String) (belt_type : BeltType) : ℚ :=
  if is_liquid item then (17 * 60 : ℚ)
  else match belt_type with
    | .blue => 45
    | .red => 30
    | .yellow => 15

theorem line_limit_pos (item : String) (bt : BeltType) : 0 < line_limit item bt := by
  unfold line_limit
  split
  · norm_num
  · cases bt <;> norm_num

/-! ## beltmanager.py — the bus -/

/-- `beltmanager.Line`: one physical parallel track of the bus. -/
structure Line where
  item : String
  throughput : ℚ
deriving Repr, DecidableEq

/-- The bus: an ordered sequence of slots, `none` marking a gap
(`BeltManager.bus : list of Line objects or None`). -/
abbrev Bus := List (Option Line)

/-- The trailing-gap cleanup at the end of `BeltManager.line_take`:
`while self.bus and self.bus[-1] is None: self.bus.pop()`. -/
def pop_trailing (bus : Bus) : Bus :=
  ((bus.reverse.dropWhile fun o => o.isNone)).reverse

/-- `BeltManager.line_take(num, throughput)`: subtract `throughput` from the line in
slot `num`.  Raises (`.error`) on an out-of-range index, an empty slot, or taking more
than the line holds; a line reaching exactly 0 becomes an empty slot, and trailing
empty slots are popped. -/
def line_take (bus : Bus) (num : ℕ) (throughput : ℚ) : Except String Bus :=
  match bus[num]? with
  | none => .error "IndexError"
  | some none => .error "Taking from empty line"
  | some (some line) =>
    -- Python binds `new = line._replace(throughput = line.throughput - throughput)`,
    -- turns it into `None` when the remaining throughput is exactly 0, then pops
    -- trailing gaps.
    if line.throughput - throughput < 0 then .error "Took too much from line"
    else .ok (pop_trailing (bus.set num
      (if line.throughput - throughput = 0 then none
       else some { line with throughput := line.throughput - throughput })))

/-- `BeltManager.add_line(item, throughput)`: allocate a new line in the leftmost empty
slot, widening the bus when there is none.  Returns the new line's position and the
new bus. -/
def add_line (bus : Bus) (item : String) (throughput : ℚ) : ℕ × Bus :=
  let bus' : Bus := if (none : Option Line) ∈ bus then bus else bus ++ [none]
  let index := bus'.findIdx fun o => o.isNone
  (index, bus'.set index (some ⟨item, throughput⟩))

/-- `BeltManager.find_lines(input, throughput)`: all `(slot index, line)` pairs whose
line carries `input` with at least `throughput` available. -/
def find_lines (bus : Bus) (input : String) (throughput : ℚ) : List (ℕ × Line) :=
  bus.enum.filterMap fun p =>
    match p.2 with
    | some line =>
      if line.item = input ∧ throughput ≤ line.throughput then some (p.1, line) else none
    | none => none

/-- Bus well-formedness: every non-empty slot has strictly positive throughput, and a
non-empty bus never ends in an empty slot. -/
def BusWF (bus : Bus) : Prop :=
  (∀ o ∈ bus, ∀ l : Line, o = some l → 0 < l.throughput) ∧ bus.getLast? ≠ some none

instance (bus : Bus) : Decidable (BusWF bus) := by
  unfold BusWF; infer_instance

/-! ### Basic bus lemmas -/

theorem head_dropWhile_not {α} (p : α → Bool) :
    ∀ (l : List α) (a : α), (l.dropWhile p).head? = some a → p a = false := by
  intro l
  induction l with
  | nil => intro a h; simp [List.dropWhile] at h
  | cons x xs ih =>
    intro a h
    rw [List.dropWhile_cons] at h
    by_cases hx : p x
    · rw [if_pos hx] at h
      exact ih a h
    · rw [if_neg hx] at h
      simp only [List.head?_cons, Option.some.injEq] at h
      subst h
      exact Bool.eq_false_iff.mpr hx

theorem pop_trailing_split (bus : Bus) :
    ∃ suf : Bus, bus = pop_trailing bus ++ suf ∧ ∀ o ∈ suf, o = none := by
  refine ⟨(bus.reverse.takeWhile fun o => o.isNone).reverse, ?_, ?_⟩
  · unfold pop_trailing
    rw [← List.reverse_append, List.takeWhile_append_dropWhile, List.reverse_reverse]
  · intro o ho
    rw [List.mem_reverse] at ho
    have := List.mem_takeWhile_imp ho
    simpa [Option.isNone_iff_eq_none] using this

theorem pop_trailing_isPrefix (bus : Bus) : pop_trailing bus <+: bus := by
  obtain ⟨suf, hsplit, _⟩ := pop_trailing_split bus
  exact ⟨suf, hsplit.symm⟩

theorem pop_trailing_last (bus : Bus) : (pop_trailing bus).getLast? ≠ some none := by
  unfold pop_trailing
  rw [List.getLast?_reverse]
  intro h
  have := head_dropWhile_not (fun o : Option Line => o.isNone) bus.reverse none h
  simp at this

theorem pop_trailing_getD_none (bus : Bus) (i : ℕ) (h : bus.getD i none = none) :
    (pop_trailing bus).getD i none = none := by
  obtain ⟨suf, hsplit, _⟩ := pop_trailing_split bus
  by_cases hi : i < (pop_trailing bus).length
  · have h2 : bus[i]? = (pop_trailing bus)[i]? := by
      conv_lhs => rw [hsplit]
      exact List.getElem?_append_left hi
    rw [List.getD_eq_getElem?_getD] at h ⊢
    rw [← h2]
    exact h
  · rw [List.getD_eq_getElem?_getD, List.getElem?_eq_none (by omega)]
    rfl

/-- Well-formedness is preserved by the trailing-gap cleanup. -/
theorem pop_trailing_wf (bus : Bus)
    (h : ∀ o ∈ bus, ∀ l : Line, o = some l → 0 < l.throughput) :
    BusWF (pop_trailing bus) := by
  constructor
  · intro o ho
    exact h o ((pop_trailing_isPrefix bus).sublist.subset ho)
  · exact pop_trailing_last bus

/-- A successful `line_take` preserves bus well-formedness. -/
theorem line_take_wf (bus : Bus) (num : ℕ) (t : ℚ) (bus' : Bus)
    (hwf : BusWF bus) (h : line_take bus num t = .ok bus') : BusWF bus' := by
  unfold line_take at h
  split at h
  · exact absurd h (by simp)
  · exact absurd h (by simp)
  case _ line heq =>
    split at h
    · exact absurd h (by simp)
    case _ hneg =>
      simp only [Except.ok.injEq] at h
      subst h
      apply pop_trailing_wf
      intro o ho l hl
      rcases List.mem_or_eq_of_mem_set ho with hmem | hset
      · exact hwf.1 o hmem l hl
      · subst hset
        split at hl
        · exact absurd hl (by simp)
        case _ hne =>
          cases hl
          exact (not_lt.mp hneg).lt_of_ne (Ne.symm hne)

theorem findIdx_isNone_append_none (bus : Bus) (hmem : (none : Option Line) ∉ bus) :
    (bus ++ [none]).findIdx (fun o : Option Line => o.isNone) = bus.length := by
  induction bus with
  | nil => rfl
  | cons x xs ih =>
    have hx : (x.isNone : Bool) = false := by
      cases x with
      | none => exact absurd (List.mem_cons_self none xs) hmem
      | some l => rfl
    rw [List.cons_append, List.findIdx_cons, hx]
    simp only [cond_false, List.length_cons]
    rw [ih fun h => hmem (List.mem_cons_of_mem x h)]

/-- Allocating a line with positive throughput preserves bus well-formedness. -/
theorem add_line_wf (bus : Bus) (item : String) (t : ℚ)
    (hwf : BusWF bus) (ht : 0 < t) : BusWF (add_line bus item t).2 := by
  unfold add_line
  by_cases hmem : (none : Option Line) ∈ bus
  · simp only [if_pos hmem]
    have hidx : bus.findIdx (fun o : Option Line => o.isNone) < bus.length :=
      List.findIdx_lt_length_of_exists ⟨none, hmem, rfl⟩
    constructor
    · intro o ho l hl
      rcases List.mem_or_eq_of_mem_set ho with hmem' | hset
      · exact hwf.1 o hmem' l hl
      · subst hset
        cases hl
        exact ht
    · rw [List.getLast?_eq_getElem?, List.length_set]
      by_cases hlast : bus.findIdx (fun o : Option Line => o.isNone) = bus.length - 1
      · rw [← hlast, List.getElem?_set_self (by omega)]
        simp
      · rw [List.getElem?_set_ne hlast]
        rw [← List.getLast?_eq_getElem?]
        exact hwf.2
  · simp only [if_neg hmem]
    rw [findIdx_isNone_append_none bus hmem]
    have hset : (bus ++ [none]).set bus.length (some ⟨item, t⟩) = bus ++ [some ⟨item, t⟩] := by
      rw [List.set_append_right _ _ (le_refl _)]
      simp
    rw [hset]
    constructor
    · intro o ho l hl
      rcases List.mem_append.mp ho with hmem' | hsing
      · exact hwf.1 o hmem' l hl
      · rw [List.mem_singleton] at hsing
        subst hsing
        cases hl
        exact ht
    · rw [List.getLast?_concat]
      simp

/-! ## layouter.py — step padding (claim C9) -/

/-- `layouter.BUS_START_X`. -/
def BUS_START_X : ℕ := 4

/-- The padding computation at the top of `layouter.layout_step`:
`padding = 3 - (bus_width + BUS_START_X) % 3; if padding == 0: padding = 3`
with `bus_width = step.width * 2`. -/
def layout_step_padding (width : ℕ) : ℕ :=
  if 3 - (width * 2 + BUS_START_X) % 3 = 0 then 3
  else 3 - (width * 2 + BUS_START_X) % 3

/-- `process_base_x = bus_width + BUS_START_X + padding` in `layouter.layout_step`. -/
def process_base_x (width : ℕ) : ℕ :=
  width * 2 + BUS_START_X + layout_step_padding width

/-- C9: For every step handed to `layout_step` (any bus width), the padding inserted
between the bus area and the process area is between 1 and 3 columns inclusive, and
the resulting process left edge `BUS_START_X + 2·width + padding` is an exact
multiple of 3. -/
theorem layout_step_padding_spec (width : ℕ) :
    1 ≤ layout_step_padding width ∧ layout_step_padding width ≤ 3
    ∧ process_base_x width % 3 = 0
    ∧ process_base_x width = BUS_START_X + 2 * width + layout_step_padding width := by
  unfold process_base_x layout_step_padding BUS_START_X
  split <;> omega

/-! ## datafile.py — recipe records and the resolver -/

/-- `datafile.Building`. -/
structure Building where
  name : String
  speed : ℚ
  mod_slots : ℕ
  can_beacon : Bool
deriving Repr, DecidableEq

/-- `datafile.Module`. -/
structure Module where
  name : String
  speed : ℚ
  prod : ℚ
deriving Repr, DecidableEq

/-- `datafile.Recipe` (building reference already resolved, as after `Datafile.load`).
The input maps are association lists with distinct keys. -/
structure Recipe where
  name : String
  building : Building
  throughput : ℚ
  inputs : List (String × ℚ)
  can_prod : Bool
  delay : ℚ
  fixed_inputs : List (String × ℚ)
  is_virtual : Bool
deriving Repr, DecidableEq

/-- `datafile.ResolvedRecipe`. -/
structure ResolvedRecipe where
  name : String
  building : Building
  is_virtual : Bool
  throughput : ℚ
  inputs : List (String × ℚ)
  mods : List String
deriving Repr, DecidableEq

/-- Python `d.get(key, 0)` on an amount dict. -/
def dict_get (d : List (String × ℚ)) (k : String) : ℚ :=
  ((d.find? fun p => p.1 == k).map Prod.snd).getD 0

/-- Python `self.modules[name]` lookup (dict keyed by module name). -/
def find_module (modules : List Module) (name : String) : Option Module :=
  modules.find? fun m => m.name == name

/-- The `while` loop of `Datafile.calc_mods`: fill `used` from the priority list
left to right, skipping productivity modules when the recipe cannot take
productivity, until the slots are full or the list is exhausted.  An unknown
module name raises a KeyError. -/
def calc_mods_loop (modules : List Module) (can_prod : Bool) (slots : ℕ) :
    List String → List String → ℚ → ℚ → Except String (ℚ × ℚ × List String)
  | [], used, speed_total, prod_total => .ok (speed_total, prod_total, used)
  | name :: rest, used, speed_total, prod_total =>
    if used.length < slots then
      match find_module modules name with
      | none => .error "KeyError"
      | some m =>
        if m.prod ≠ 0 ∧ can_prod = false then
          calc_mods_loop modules can_prod slots rest used speed_total prod_total
        else
          calc_mods_loop modules can_prod slots rest (used ++ [name])
            (speed_total + m.speed) (prod_total + m.prod)
    else .ok (speed_total, prod_total, used)

/-- `Datafile.calc_mods`: final (crafting speed, productivity, installed module names).
`speed_total` starts at the beacon speed bonus. -/
def calc_mods (modules : List Module) (recipe : Recipe) (priorities : List String)
    (beacon_speed : ℚ) : Except String (ℚ × ℚ × List String) := do
  let (speed_total, prod_total, used) ←
    calc_mods_loop modules recipe.can_prod recipe.building.mod_slots priorities [] beacon_speed 0
  .ok (recipe.building.speed * (1 + speed_total), 1 + prod_total, used)

/-- `Datafile.resolve_recipe`.  `period_no_delay = 1 / throughput_no_delay` raises
ZeroDivisionError when the product is zero, as does `1 / period`; both are embedded
as explicit error branches. -/
def resolve_recipe (modules : List Module) (recipe : Recipe) (priorities : List String)
    (beacon_speed : ℚ) : Except String ResolvedRecipe := do
  let (speed, prod, modlist) ← calc_mods modules recipe priorities beacon_speed
  if recipe.throughput * speed * prod = 0 then .error "ZeroDivisionError"
  else if 1 / (recipe.throughput * speed * prod) + recipe.delay = 0 then .error "ZeroDivisionError"
  else .ok {
    name := recipe.name
    building := recipe.building
    is_virtual := recipe.is_virtual
    throughput := 1 / (1 / (recipe.throughput * speed * prod) + recipe.delay)
    -- `{item: inputs.get(item, 0) / prod + fixed_inputs.get(item, 0)
    --   for item in set(inputs) | set(fixed_inputs)}`; the set union is embedded
    -- as the deduplicated concatenation of the two key lists.
    inputs := ((recipe.inputs.map Prod.fst ++ recipe.fixed_inputs.map Prod.fst).dedup).map
      fun item => (item, dict_get recipe.inputs item / prod + dict_get recipe.fixed_inputs item)
    mods := modlist }

/-! ## calculator.py — `Calculator.solve` (claim C3) -/

/-- `calculator.Process`: total production of one item; `recipe` is `none` for raw
inputs. -/
structure CalcProcess where
  item : String
  recipe : Option ResolvedRecipe
  throughput : ℚ
deriving Repr, DecidableEq

/-- `Calculator.solve(item, throughput)`.

The Python condition is `if item not in self.datafile.recipes or item in stop_items:`.
`Calculator.__init__` stores the stop list as `self.stop_items`, but the name read
here is the bare global `stop_items`, which is not defined anywhere in
`calculator.py`.  When `item` has no recipe the `or` short-circuits and the
raw-input branch returns; otherwise evaluating `item in stop_items` raises
NameError, so everything past the condition (recipe resolution and recursion) is
unreachable.  The `stop_items` parameter below models the stored-but-never-read
`self.stop_items`. -/
def solve (recipe_names : List String) (stop_items : List String) (item : String)
    (throughput : ℚ) : Except String (List (String × CalcProcess)) :=
  if item ∈ recipe_names then .error "NameError: global name stop_items is not defined"
  else .ok [(item, { item := item, recipe := none, throughput := throughput })]

/-- C3 (code bug): an item that has a recipe and is named in the stop set makes
`Calculator.solve` raise NameError (the undefined global `stop_items` is read
instead of `self.stop_items`) instead of returning a raw-input Process at the
requested rate; only the no-recipe case returns the raw-input Process. -/
theorem solve_stop_item_raises :
    solve ["iron gear wheel"] ["iron gear wheel"] "iron gear wheel" 1
      = .error "NameError: global name stop_items is not defined"
    ∧ solve [] ["iron plate"] "iron plate" 2
      = .ok [("iron plate", { item := "iron plate", recipe := none, throughput := 2 })] := by
  exact ⟨rfl, rfl⟩

/-! ### Claim C4 — the resolver invariant -/

/-- Sum of the speed effects of a list of installed module names. -/
def mods_speed_sum (modules : List Module) (names : List String) : ℚ :=
  (names.map fun n => (((find_module modules n).map Module.speed).getD 0)).sum

/-- Sum of the productivity effects of a list of installed module names. -/
def mods_prod_sum (modules : List Module) (names : List String) : ℚ :=
  (names.map fun n => (((find_module modules n).map Module.prod).getD 0)).sum

theorem calc_mods_loop_sums (modules : List Module) (cp : Bool) (slots : ℕ) :
    ∀ (rest used : List String) (s p s' p' : ℚ) (used' : List String),
      calc_mods_loop modules cp slots rest used s p = .ok (s', p', used') →
      ∃ new, used' = used ++ new
        ∧ s' = s + mods_speed_sum modules new
        ∧ p' = p + mods_prod_sum modules new := by
  intro rest
  induction rest with
  | nil =>
    intro used s p s' p' used' h
    simp only [calc_mods_loop, Except.ok.injEq, Prod.mk.injEq] at h
    obtain ⟨hs, hp, hu⟩ := h
    subst hs hp hu
    exact ⟨[], by simp [mods_speed_sum, mods_prod_sum]⟩
  | cons name rest ih =>
    intro used s p s' p' used' h
    rw [calc_mods_loop] at h
    split at h
    · split at h
      · exact absurd h (by simp)
      case _ m hm =>
        split at h
        · exact ih used s p s' p' used' h
        · obtain ⟨new', h1, h2, h3⟩ := ih (used ++ [name]) _ _ _ _ _ h
          refine ⟨name :: new', ?_, ?_, ?_⟩
          · rw [h1, List.append_assoc]
            rfl
          · rw [h2]
            simp only [mods_speed_sum, List.map_cons, List.sum_cons, hm,
              Option.map_some', Option.getD_some]
            ring
          · rw [h3]
            simp only [mods_prod_sum, List.map_cons, List.sum_cons, hm,
              Option.map_some', Option.getD_some]
            ring
    · simp only [Except.ok.injEq, Prod.mk.injEq] at h
      obtain ⟨hs, hp, hu⟩ := h
      subst hs hp hu
      exact ⟨[], by simp [mods_speed_sum, mods_prod_sum]⟩

theorem find_map_key {α : Type} (l : List String) (f : String → α) (item : String)
    (h : item ∈ l) :
    ((l.map fun k => (k, f k)).find? fun q => q.1 == item) = some (item, f item) := by
  induction l with
  | nil => exact absurd h (List.not_mem_nil item)
  | cons x xs ih =>
    rw [List.map_cons]
    by_cases hx : x = item
    · subst hx
      rw [List.find?_cons_of_pos _ (by simp)]
    · rw [List.find?_cons_of_neg _ (by simpa using hx)]
      exact ih (by rcases List.mem_cons.mp h with h' | h' <;> [exact absurd h'.symm hx; exact h'])

/-- C4: For every recipe, module priority list naming known modules and beacon bonus
β ≥ 0, `resolve_recipe` returns a `ResolvedRecipe` whose throughput equals
`1 / (delay + 1 / (base_throughput × speed_factor × prod_factor))` where
`speed_factor = 1 + β + Σ installed speed effects` (applied together with the
building's base speed), `prod_factor = 1 + Σ installed productivity effects`,
and whose effective inputs are `base_inputs[i] / prod_factor + fixed_inputs[i]`
for every input item `i`. -/
theorem resolve_recipe_spec (modules : List Module) (recipe : Recipe)
    (priorities : List String) (β : ℚ) (hβ : 0 ≤ β) (r : ResolvedRecipe)
    (h : resolve_recipe modules recipe priorities β = .ok r) :
    r.throughput
      = 1 / (recipe.delay + 1 / (recipe.throughput
          * (recipe.building.speed * (1 + β + mods_speed_sum modules r.mods))
          * (1 + mods_prod_sum modules r.mods)))
    ∧ ∀ item ∈ recipe.inputs.map Prod.fst ++ recipe.fixed_inputs.map Prod.fst,
        (r.inputs.find? fun q => q.1 == item)
          = some (item, dict_get recipe.inputs item / (1 + mods_prod_sum modules r.mods)
              + dict_get recipe.fixed_inputs item) := by
  rw [resolve_recipe] at h
  cases hcm : calc_mods modules recipe priorities β with
  | error e =>
    rw [hcm] at h
    exact absurd h (by simp [Bind.bind, Except.bind])
  | ok v =>
    obtain ⟨speed, prod, modlist⟩ := v
    rw [hcm] at h
    simp only [Bind.bind, Except.bind] at h
    split at h
    · exact absurd h (by simp)
    split at h
    · exact absurd h (by simp)
    simp only [Except.ok.injEq] at h
    subst h
    -- unpack calc_mods
    rw [calc_mods] at hcm
    cases hloop : calc_mods_loop modules recipe.can_prod recipe.building.mod_slots
        priorities [] β 0 with
    | error e =>
      rw [hloop] at hcm
      exact absurd hcm (by simp [Bind.bind, Except.bind])
    | ok w =>
      obtain ⟨s_t, p_t, used⟩ := w
      rw [hloop] at hcm
      simp only [Bind.bind, Except.bind, Except.ok.injEq, Prod.mk.injEq] at hcm
      obtain ⟨hspeed, hprod, hused⟩ := hcm
      obtain ⟨new, hnew, hs, hp⟩ :=
        calc_mods_loop_sums modules recipe.can_prod recipe.building.mod_slots
          priorities [] β 0 s_t p_t used hloop
      rw [List.nil_append] at hnew
      subst hnew
      constructor
      · simp only [← hspeed, ← hprod, ← hused, hs, hp]
        ring_nf
      · intro item hitem
        simp only [← hused, ← hprod, hp]
        rw [find_map_key _ _ _ (List.mem_dedup.mpr hitem)]
        ring_nf

instance {e a : Type} [DecidableEq e] [DecidableEq a] : DecidableEq (Except e a)
  | .ok x, .ok y =>
    if h : x = y then .isTrue (by rw [h]) else .isFalse (by intro hh; cases hh; exact h rfl)
  | .error x, .error y =>
    if h : x = y then .isTrue (by rw [h]) else .isFalse (by intro hh; cases hh; exact h rfl)
  | .ok _, .error _ => .isFalse (by intro hh; cases hh)
  | .error _, .ok _ => .isFalse (by intro hh; cases hh)

/-- Concrete data for the C4 witness: productivity-3 and speed-3 modules, an
assembler, and a gear recipe. -/
def prod3 : Module := ⟨"prod 3", -3/20, 1/10⟩

def speed3 : Module := ⟨"speed 3", 1/2, 0⟩

def assembler : Building := ⟨"assembler", 5/4, 4, true⟩

def gear_recipe : Recipe :=
  ⟨"gear", assembler, 2, [("iron plate", 2)], true, 0, [], false⟩

/-- Witness for C4 at a concrete recipe, module list and beacon bonus. -/
theorem resolve_recipe_spec_witness :
    0 ≤ (2 : ℚ)
    ∧ ∃ r, resolve_recipe [prod3, speed3] gear_recipe
        ["prod 3", "prod 3", "prod 3", "prod 3", "speed 3", "speed 3", "speed 3", "speed 3"]
        2 = .ok r
      ∧ (r.throughput
          = 1 / (gear_recipe.delay + 1 / (gear_recipe.throughput
              * (gear_recipe.building.speed * (1 + 2 + mods_speed_sum [prod3, speed3] r.mods))
              * (1 + mods_prod_sum [prod3, speed3] r.mods)))
        ∧ ∀ item ∈ gear_recipe.inputs.map Prod.fst ++ gear_recipe.fixed_inputs.map Prod.fst,
            (r.inputs.find? fun q => q.1 == item)
              = some (item, dict_get gear_recipe.inputs item
                  / (1 + mods_prod_sum [prod3, speed3] r.mods)
                  + dict_get gear_recipe.fixed_inputs item)) := by
  have hres : resolve_recipe [prod3, speed3] gear_recipe
      ["prod 3", "prod 3", "prod 3", "prod 3", "speed 3", "speed 3", "speed 3", "speed 3"]
      2 = .ok ⟨"gear", assembler, false, 42/5, [("iron plate", 10/7)],
          ["prod 3", "prod 3", "prod 3", "prod 3"]⟩ := by
    norm_num [resolve_recipe, calc_mods, calc_mods_loop, find_module, dict_get,
      gear_recipe, assembler, prod3, speed3, Bind.bind, Except.bind]
  refine ⟨by norm_num, _, hres, ?_⟩
  exact resolve_recipe_spec [prod3, speed3] gear_recipe
    ["prod 3", "prod 3", "prod 3", "prod 3", "speed 3", "speed 3", "speed 3", "speed 3"]
    2 (by norm_num) _ hres

/-! ## main.py / calculator.py — the step splitter (claim C5)

`main.py` imports `split_into_steps` from `calculator.py`, but the function is
absent from the source tree (that module is mid-refactor, marked `# UPTO`), so
the splitter is modelled from §4.3 of the spec. -/

/-- Modelled from the spec: the process shape consumed by the step splitter — an
output rate plus per-output-unit input amounts and per-process outputs
(`per_process_outputs`, default `{item: 1}`). -/
structure SplitProcess where
  throughput : ℚ
  inputs : List (String × ℚ)
  outputs : List (String × ℚ)
deriving Repr, DecidableEq

/-- All per-unit flows of a process: inputs and outputs together. -/
def flows (p : SplitProcess) : List (String × ℚ) := p.inputs ++ p.outputs

/-- Modelled from the spec: `steps = max over (item, throughput) ∈ inputs ∪ outputs
of throughput / capacity(item)`, where `capacity` is `line_limit` (which already
returns the fixed ~1020/sec pipe limit for liquids). -/
def steps_count (bt : BeltType) (p : SplitProcess) : ℚ :=
  match (flows p).map fun q => q.2 * p.throughput / line_limit q.1 bt with
  | [] => 0
  | x :: xs => xs.foldl max x

/-- Modelled from the spec: `split_into_steps` (missing from `calculator.py`, which
`main.py` imports it from) emits `⌊steps⌋` copies of the Process rescaled to
`throughput / steps`, plus one scaled-down fractional step for the remainder when
`steps` is non-integral. -/
def split_into_steps (bt : BeltType) (p : SplitProcess) : List SplitProcess :=
  List.replicate (⌊steps_count bt p⌋.toNat)
      { p with throughput := p.throughput / steps_count bt p }
    ++ (if steps_count bt p = (⌊steps_count bt p⌋ : ℚ) then []
        else [{ p with throughput :=
          p.throughput - (⌊steps_count bt p⌋ : ℚ) * (p.throughput / steps_count bt p) }])

theorem le_foldl_max (x : ℚ) (xs : List ℚ) : ∀ y ∈ x :: xs, y ≤ xs.foldl max x := by
  induction xs generalizing x with
  | nil =>
    intro y hy
    rw [List.mem_singleton] at hy
    subst hy
    exact le_refl _
  | cons z zs ih =>
    intro y hy
    rw [List.foldl_cons]
    rcases List.mem_cons.mp hy with h1 | h2
    · subst h1
      exact le_trans (le_max_left y z) (ih (max y z) _ (List.mem_cons_self _ _))
    · rcases List.mem_cons.mp h2 with h3 | h4
      · subst h3
        exact le_trans (le_max_right x y) (ih (max x y) _ (List.mem_cons_self _ _))
      · exact ih (max x z) y (List.mem_cons_of_mem _ h4)

theorem steps_count_ge (bt : BeltType) (p : SplitProcess) :
    ∀ q ∈ flows p, q.2 * p.throughput / line_limit q.1 bt ≤ steps_count bt p := by
  intro q hq
  unfold steps_count
  generalize hl : ((flows p).map fun q => q.2 * p.throughput / line_limit q.1 bt) = l
  have hmem : q.2 * p.throughput / line_limit q.1 bt ∈ l := by
    rw [← hl]
    exact List.mem_map_of_mem _ hq
  cases l with
  | nil => exact absurd hmem (List.not_mem_nil _)
  | cons x xs => exact le_foldl_max x xs _ hmem

/-- C5 (spec-modelled): for every process with positive rate and at least one
positive flow, every emitted step's per-item throughputs fit within one line's
capacity, the emitted steps all keep the process's inputs and outputs, and the
emitted steps' rates sum to the original rate. -/
theorem split_into_steps_spec (bt : BeltType) (p : SplitProcess)
    (hT : 0 < p.throughput) (hflow : ∃ q ∈ flows p, 0 < q.2) :
    (∀ s ∈ split_into_steps bt p, s.inputs = p.inputs ∧ s.outputs = p.outputs
      ∧ ∀ q ∈ flows s, q.2 * s.throughput ≤ line_limit q.1 bt)
    ∧ ((split_into_steps bt p).map SplitProcess.throughput).sum = p.throughput := by
  obtain ⟨q0, hq0, hq0pos⟩ := hflow
  have hS : 0 < steps_count bt p := by
    have h1 : 0 < q0.2 * p.throughput / line_limit q0.1 bt :=
      div_pos (mul_pos hq0pos hT) (line_limit_pos _ _)
    exact lt_of_lt_of_le h1 (steps_count_ge bt p q0 hq0)
  set S := steps_count bt p with hSdef
  have hfloor_nonneg : (0 : ℤ) ≤ ⌊S⌋ := Int.floor_nonneg.mpr hS.le
  have hfloor_le : (⌊S⌋ : ℚ) ≤ S := Int.floor_le S
  have hlt : S < (⌊S⌋ : ℚ) + 1 := Int.lt_floor_add_one S
  have hdiv_pos : 0 < p.throughput / S := div_pos hT hS
  -- the per-flow capacity bound at a given step rate
  have hbound : ∀ t : ℚ, 0 ≤ t → t ≤ p.throughput / S →
      ∀ q ∈ flows p, q.2 * t ≤ line_limit q.1 bt := by
    intro t ht htle q hq
    rcases le_or_lt q.2 0 with hq2 | hq2
    · calc q.2 * t ≤ 0 := mul_nonpos_of_nonpos_of_nonneg hq2 ht
        _ ≤ line_limit q.1 bt := (line_limit_pos _ _).le
    · have h1 : q.2 * p.throughput / line_limit q.1 bt ≤ S := steps_count_ge bt p q hq
      have h2 : q.2 * p.throughput ≤ S * line_limit q.1 bt :=
        (div_le_iff₀ (line_limit_pos _ _)).mp h1
      have h3 : q.2 * (p.throughput / S) ≤ line_limit q.1 bt := by
        rw [mul_div_assoc'] at *
        rw [div_le_iff₀ hS]
        linarith [h2]
      calc q.2 * t ≤ q.2 * (p.throughput / S) := by
            exact mul_le_mul_of_nonneg_left htle hq2.le
        _ ≤ line_limit q.1 bt := h3
  have hfrac_nonneg : 0 ≤ p.throughput - (⌊S⌋ : ℚ) * (p.throughput / S) := by
    have : (⌊S⌋ : ℚ) * (p.throughput / S) ≤ S * (p.throughput / S) :=
      mul_le_mul_of_nonneg_right hfloor_le hdiv_pos.le
    rw [mul_div_cancel₀ p.throughput hS.ne'] at this
    linarith
  have hfrac_le : p.throughput - (⌊S⌋ : ℚ) * (p.throughput / S) ≤ p.throughput / S := by
    have h1 : S * (p.throughput / S) < ((⌊S⌋ : ℚ) + 1) * (p.throughput / S) :=
      mul_lt_mul_of_pos_right hlt hdiv_pos
    rw [mul_div_cancel₀ p.throughput hS.ne'] at h1
    nlinarith
  constructor
  · intro s hs
    unfold split_into_steps at hs
    rw [← hSdef] at hs
    rcases List.mem_append.mp hs with hrep | hfrac
    · have hseq := List.eq_of_mem_replicate hrep
      subst hseq
      exact ⟨rfl, rfl, fun q hq => hbound _ hdiv_pos.le (le_refl _) q hq⟩
    · split at hfrac
      · exact absurd hfrac (List.not_mem_nil _)
      · rw [List.mem_singleton] at hfrac
        subst hfrac
        exact ⟨rfl, rfl, fun q hq => hbound _ hfrac_nonneg hfrac_le q hq⟩
  · unfold split_into_steps
    rw [← hSdef]
    rw [List.map_append, List.sum_append, List.map_replicate, List.sum_replicate]
    have hcast : ((⌊S⌋.toNat : ℕ) : ℚ) = (⌊S⌋ : ℚ) := by
      exact_mod_cast Int.toNat_of_nonneg hfloor_nonneg
    split
    case _ hint =>
      simp only [List.map_nil, List.sum_nil, add_zero, nsmul_eq_mul]
      rw [hcast, ← hint, mul_div_cancel₀ p.throughput hS.ne']
    case _ hint =>
      simp only [List.map_cons, List.map_nil, List.sum_cons, List.sum_nil, add_zero,
        nsmul_eq_mul]
      rw [hcast]
      ring

/-- Concrete process for the C5 witness: 50/sec of gears from iron plates on blue
belts (capacity 45): one maximal step of 45/sec plus a fractional step of 5/sec. -/
def gear_split_process : SplitProcess := ⟨50, [("iron plate", 1)], [("gear", 1)]⟩

/-- Witness for C5 at a concrete process. -/
theorem split_into_steps_spec_witness :
    (0 < gear_split_process.throughput ∧ ∃ q ∈ flows gear_split_process, 0 < q.2)
    ∧ ((∀ s ∈ split_into_steps .blue gear_split_process,
          s.inputs = gear_split_process.inputs ∧ s.outputs = gear_split_process.outputs
          ∧ ∀ q ∈ flows s, q.2 * s.throughput ≤ line_limit q.1 .blue)
      ∧ ((split_into_steps .blue gear_split_process).map SplitProcess.throughput).sum
          = gear_split_process.throughput) := by
  have h1 : 0 < gear_split_process.throughput := by norm_num [gear_split_process]
  have h2 : ∃ q ∈ flows gear_split_process, 0 < q.2 :=
    ⟨("iron plate", 1), by norm_num [flows, gear_split_process], by norm_num⟩
  exact ⟨⟨h1, h2⟩, split_into_steps_spec .blue gear_split_process h1 h2⟩

/-! ## layouter.py — off-ramp choice in `layout_in_outs` (claim C7) -/

/-- The primitive table used for inputs in `layout_in_outs`, keyed by
`(is_liquid(line.item), line_ends)`:
`{(False, False): belt_offramp, (False, True): belt_offramp_all,
  (True, False): pipe_ramp, (True, True): pipe_offramp_all}`. -/
def offramp_primitive (liquid : Bool) (line_ends : Bool) : String :=
  match liquid, line_ends with
  | false, false => "belt_offramp"
  | false, true => "belt_offramp_all"
  | true, false => "pipe_ramp"
  | true, true => "pipe_offramp_all"

/-- One input of the inputs loop of `layout_in_outs`: look up
`line = step.bus[bus_index]`, compute
`line_ends = (line.throughput == step.process.inputs()[line.item])`, and select the
off-ramp primitive.  An out-of-range index raises IndexError, a gap raises
AttributeError (`line.throughput` on `None`), a missing process input raises
KeyError. -/
def input_offramp (bus_before : Bus) (proc_inputs : List (String × ℚ)) (bus_index : ℕ) :
    Except String String :=
  match bus_before[bus_index]? with
  | none => .error "IndexError"
  | some none => .error "AttributeError"
  | some (some line) =>
    match (proc_inputs.find? fun q => q.1 == line.item).map Prod.snd with
    | none => .error "KeyError"
    | some required =>
      .ok (offramp_primitive (is_liquid line.item) (decide (line.throughput = required)))

/-- C7: when a placement input's required throughput equals the source bus line's
remaining throughput exactly, `layout_in_outs` places the take-all off-ramp variant
(belt or pipe) and the debit (`line_take`) empties that slot, so the bus loses the
line; when the throughputs differ, the continuing-line off-ramp variant is placed. -/
theorem offramp_all_spec (bus : Bus) (proc_inputs : List (String × ℚ)) (i : ℕ)
    (line : Line) (required : ℚ)
    (hline : bus[i]? = some (some line))
    (hreq : (proc_inputs.find? fun q => q.1 == line.item).map Prod.snd = some required) :
    (required = line.throughput →
      input_offramp bus proc_inputs i
          = .ok (if is_liquid line.item then "pipe_offramp_all" else "belt_offramp_all")
        ∧ line_take bus i required = .ok (pop_trailing (bus.set i none))
        ∧ (pop_trailing (bus.set i none)).getD i none = none)
    ∧ (required ≠ line.throughput →
      input_offramp bus proc_inputs i
          = .ok (if is_liquid line.item then "pipe_ramp" else "belt_offramp")) := by
  constructor
  · intro heq
    subst heq
    refine ⟨?_, ?_, ?_⟩
    · simp only [input_offramp, hline, hreq]
      cases hl : is_liquid line.item <;> simp [offramp_primitive, hl]
    · simp [line_take, hline]
    · apply pop_trailing_getD_none
      have hi : i < bus.length := by
        by_contra hge
        rw [List.getElem?_eq_none (by omega)] at hline
        exact absurd hline (by simp)
      rw [List.getD_eq_getElem?_getD, List.getElem?_set_self (by simpa using hi)]
      rfl
  · intro hne
    simp only [input_offramp, hline, hreq]
    have hdec : decide (line.throughput = required) = false := by
      simp [Ne.symm hne]
    rw [hdec]
    cases hl : is_liquid line.item <;> simp [offramp_primitive, hl]

/-- Witness for C7: a 3/sec iron-plate line consumed exactly (take-all variant and
the slot empties), and a second line only partially consumed (continuing variant). -/
theorem offramp_all_spec_witness :
    (([some ⟨"iron plate", 3⟩] : Bus)[0]? = some (some ⟨"iron plate", 3⟩)
      ∧ ([("iron plate", (3 : ℚ))].find? fun q => q.1 == "iron plate").map Prod.snd = some 3)
    ∧ ((3 : ℚ) = (3 : ℚ) →
        input_offramp [some ⟨"iron plate", 3⟩] [("iron plate", 3)] 0
            = .ok (if is_liquid "iron plate" then "pipe_offramp_all" else "belt_offramp_all")
          ∧ line_take [some ⟨"iron plate", 3⟩] 0 3
              = .ok (pop_trailing (([some ⟨"iron plate", 3⟩] : Bus).set 0 none))
          ∧ (pop_trailing (([some ⟨"iron plate", 3⟩] : Bus).set 0 none)).getD 0 none = none)
    ∧ ((3 : ℚ) ≠ (2 : ℚ) →
        input_offramp [some ⟨"iron plate", 2⟩] [("iron plate", 3)] 0
            = .ok (if is_liquid "iron plate" then "pipe_ramp" else "belt_offramp")) := by
  refine ⟨⟨rfl, by simp⟩, ?_, ?_⟩
  · exact (offramp_all_spec [some ⟨"iron plate", 3⟩] [("iron plate", 3)] 0
      ⟨"iron plate", 3⟩ 3 rfl (by simp)).1
  · exact (offramp_all_spec [some ⟨"iron plate", 2⟩] [("iron plate", 3)] 0
      ⟨"iron plate", 2⟩ 3 rfl (by simp)).2

/-! ## blueprint.py — encode / lossy_decode (claim C8) -/

/-- `primitives.Entity`: a placed game object.  `orientation` is 0–3 or `None`;
`connections` entries are `(port, color, rel_x, rel_y, target_port)`; `attrs` is an
opaque attribute bag. -/
structure BEntity where
  name : String
  orientation : Option ℕ
  connections : List (ℕ × String × ℤ × ℤ × ℕ)
  attrs : List (String × String)
deriving Repr, DecidableEq

/-- `blueprint.entity_sizes` with its `(1, 1)` default.  (In the source the
`rocket_silo` key is `E.rocket_silo`, which is accidentally a 1-tuple
`('rocket-silo',)` because of a trailing comma in `primitives.py`; that key can
therefore never match an entity name, which does not matter for the claims here.) -/
def entity_sizes (name : String) : ℕ × ℕ :=
  if name = "pump" then (1, 2)
  else if name = "big-electric-pole" then (2, 2)
  else if name = "beacon" then (3, 3)
  else if name = "radar" then (3, 3)
  else if name = "assembling-machine-3" then (3, 3)
  else if name = "chemical-plant" then (3, 3)
  else if name = "lab" then (3, 3)
  else if name = "express-splitter" then (2, 1)
  else if name = "roboport" then (4, 4)
  else if name = "electric-furnace" then (3, 3)
  else if name = "oil-refinery" then (5, 5)
  else (1, 1)

/-- One JSON entity of the blueprint schema, as built by `encode_entity`:
`{entity_number, name, position: {x, y}, direction?, connections?, ...attrs}`.
The nested `connections` dicts (port → color → targets) are flattened to a list of
`(port, color, entity_id, circuit_id?)` entries. -/
structure BPEntity where
  entity_number : ℕ
  name : String
  x : ℚ
  y : ℚ
  direction : Option ℕ
  connections : List (ℕ × String × ℕ × Option ℕ)
  attrs : List (String × String)
deriving Repr, DecidableEq

/-- The decoded-JSON view of a blueprint string.  `encode_json`/`decode_json`
(`"0" + base64(deflate(json))` and its inverse) form a bijection on JSON values and
are not modelled; `Blueprint` stands for the JSON object under the `"blueprint"`
key. -/
structure Blueprint where
  label : String
  version : ℕ
  icons : List String
  entities : List BPEntity
deriving Repr, DecidableEq

/-- `blueprint.MAP_VERSION`. -/
def MAP_VERSION : ℕ := 0x1000330000

/-- The `connections` loop of `encode_entity`: resolve each target position through
`entity_number_by_position`, raising when nothing is there.  `circuit_id` is set
only for a truthy (non-zero) `target_port`. -/
def encode_connections (idx : List ((ℤ × ℤ) × ℕ)) (pos : ℤ × ℤ) :
    List (ℕ × String × ℤ × ℤ × ℕ) → Except String (List (ℕ × String × ℕ × Option ℕ))
  | [] => .ok []
  | (port, color, rel_x, rel_y, target_port) :: rest =>
    match (idx.find? fun q => q.1 == (pos.1 + rel_x, pos.2 + rel_y)).map Prod.snd with
    | none => .error "ValueError: tried to target a position, but nothing is there"
    | some target_number => do
      let rest' ← encode_connections idx pos rest
      .ok ((port, color, target_number,
        if target_port ≠ 0 then some target_port else none) :: rest')

/-- `blueprint.encode_entity`.  Width and height swap when the orientation is left
or right; the emitted `position` is the entity center relative to the blueprint
center (`pos + size/2 − center`, float halves embedded as exact rationals);
`direction` is `2 × orientation`, omitted for `Up` and for unoriented entities. -/
def encode_entity (idx : List ((ℤ × ℤ) × ℕ)) (number : ℕ) (pos : ℤ × ℤ)
    (entity : BEntity) (center : ℚ × ℚ) : Except String BPEntity := do
  let conns ← encode_connections idx pos entity.connections
  .ok {
    entity_number := number
    name := entity.name
    x := (pos.1 : ℚ) + ((match entity.orientation with
      | some o => if o % 2 = 1 then (entity_sizes entity.name).2 else (entity_sizes entity.name).1
      | none => (entity_sizes entity.name).1 : ℕ) : ℚ) / 2 - center.1
    y := (pos.2 : ℚ) + ((match entity.orientation with
      | some o => if o % 2 = 1 then (entity_sizes entity.name).1 else (entity_sizes entity.name).2
      | none => (entity_sizes entity.name).2 : ℕ) : ℚ) / 2 - center.2
    direction := match entity.orientation with
      | some o => if o ≠ 0 then some (2 * o) else none
      | none => none
    connections := conns
    attrs := entity.attrs }

/-- Python `max` over a nonempty list of integers. -/
def py_max_int (x : ℤ) (xs : List ℤ) : ℤ := xs.foldl max x

/-- The per-entity loop of `encode`, numbering entities from 1. -/
def encode_entities (idx : List ((ℤ × ℤ) × ℕ)) (center : ℚ × ℚ) :
    ℕ → List ((ℤ × ℤ) × BEntity) → Except String (List BPEntity)
  | _, [] => .ok []
  | n, (pos, ent) :: rest => do
    let e ← encode_entity idx (n + 1) pos ent center
    let es ← encode_entities idx center (n + 1) rest
    .ok (e :: es)

/-- `blueprint.encode`: full width and height (no rotation swap here, as in the
source), the blueprint center at `(width // 2 + .5, height // 2 + .5)` (Python 2
floor division), the position→number index (later entries overwrite earlier ones in
the Python dict, hence the `reverse` before first-match lookup), and the entity
list.  `max` of an empty sequence raises ValueError. -/
def encode (entities : List ((ℤ × ℤ) × BEntity)) (label : String) (icons : List String) :
    Except String Blueprint :=
  match entities.map (fun pe => pe.1.1 + ((entity_sizes pe.2.name).1 : ℤ)),
      entities.map (fun pe => pe.1.2 + ((entity_sizes pe.2.name).2 : ℤ)) with
  | [], _ => .error "ValueError: max() arg is an empty sequence"
  | _, [] => .error "ValueError: max() arg is an empty sequence"
  | w :: ws, h :: hs => do
    let width := py_max_int w ws
    let height := py_max_int h hs
    let center : ℚ × ℚ := ((width.fdiv 2 : ℤ) + 1/2, (height.fdiv 2 : ℤ) + 1/2)
    let idx := (entities.enum.map fun ie => (ie.2.1, ie.1 + 1)).reverse
    let ents ← encode_entities idx center 0 entities
    .ok { label := label, version := MAP_VERSION, icons := icons, entities := ents }

/-- `blueprint.lossy_decode_entity`.

The function computes `width`/`height`, `orientation = direction / 2` and the
stripped `attrs`, and then evaluates `Entity(entity['name'], orientation, attrs)`.
`primitives.Entity` is a namedtuple with four required fields
`(name, orientation, connections, attrs)`; the call passes only three positional
arguments, so the constructor raises a TypeError on every entity. -/
def lossy_decode_entity (e : BPEntity) : Except String ((ℚ × ℚ) × BEntity) :=
  .error "TypeError: new() takes exactly 5 arguments (4 given)"

/-- Python 2 `map(lossy_decode_entity, ...)`: the list is built eagerly, so the
first raising element aborts the whole call. -/
def map_decode : List BPEntity → Except String (List ((ℚ × ℚ) × BEntity))
  | [] => .ok []
  | e :: rest => do
    let d ← lossy_decode_entity e
    let ds ← map_decode rest
    .ok (d :: ds)

/-- Python `min` over a nonempty list of rationals. -/
def py_min_rat (x : ℚ) (xs : List ℚ) : ℚ := xs.foldl min x

/-- `blueprint.lossy_decode`: map `lossy_decode_entity` over the entities, return
`[]` for an empty list, else shift by the top-left minimum and truncate to
integers.  (`int()` truncates toward zero; the offsets here are nonnegative, where
truncation and `⌊·⌋` agree — and for a nonempty list this tail is unreachable
anyway because `lossy_decode_entity` always raises.) -/
def lossy_decode (bp : Blueprint) : Except String (List ((ℤ × ℤ) × BEntity)) := do
  let entities ← map_decode bp.entities
  match entities with
  | [] => .ok []
  | e :: es =>
    let top_left : ℚ × ℚ :=
      (py_min_rat e.1.1 (es.map fun d => d.1.1), py_min_rat e.1.2 (es.map fun d => d.1.2))
    .ok ((e :: es).map fun d => ((⌊d.1.1 - top_left.1⌋, ⌊d.1.2 - top_left.2⌋), d.2))

/-- C8 (code bug): `lossy_decode` raises a TypeError on every non-empty blueprint —
`lossy_decode_entity` constructs the 4-field `Entity` namedtuple with only 3
arguments — so decoding an encoded blueprint never yields the entity stream the
round-trip claim describes.  Evaluated here at a single medium power pole at
(0, 0). -/
theorem lossy_decode_type_error :
    encode [((0, 0), ⟨"medium-electric-pole", none, [], []⟩)] "Generated"
        ["assembling-machine-3"]
      = .ok ⟨"Generated", MAP_VERSION, ["assembling-machine-3"],
          [⟨1, "medium-electric-pole", 0, 0, none, [], []⟩]⟩
    ∧ lossy_decode ⟨"Generated", MAP_VERSION, ["assembling-machine-3"],
          [⟨1, "medium-electric-pole", 0, 0, none, [], []⟩]⟩
      = .error "TypeError: new() takes exactly 5 arguments (4 given)" := by
  constructor
  · simp [encode, encode_entities, encode_entity, encode_connections, entity_sizes,
      py_max_int, Bind.bind, Except.bind, MAP_VERSION, List.enum]
  · rfl

/-! ## processor.py — matching (claim C1) -/

/-- `processor.InOutKinds`: an I/O signature `(n_liquids, n_full_belts, n_half_belts)`. -/
structure InOutKinds where
  liquid : ℕ
  belt : ℕ
  halfbelt : ℕ
deriving Repr, DecidableEq

/-- `processor.Processor`, restricted to the fields `match_score` and
`find_processor` read: the allowed buildings and the two signatures.  The layout
fields (head/body/tail, widths, building counts, oversize) play no part in
matching. -/
structure Processor where
  name : String
  buildings : List String
  inputs : InOutKinds
  outputs : InOutKinds
deriving Repr, DecidableEq

/-- One arm of the `for have, need in ((self.outputs, outputs), (self.inputs, inputs))`
loop of `Processor.match_score`, threading the `unused`/`underused` accumulators.
(`have` is a Lean keyword, hence `have_k`/`need_k`.)  The natural subtractions are
exact: each is guarded by the preceding comparison, and
`unused += have.liquid - need.liquid` adds zero because the liquid counts were just
checked equal. -/
def score_part (have_k need_k : InOutKinds) (unused underused : ℕ) : Option (ℕ × ℕ) :=
  if have_k.liquid ≠ need_k.liquid then none
  else if have_k.belt < need_k.belt then none
  else if have_k.belt - need_k.belt + have_k.halfbelt < need_k.halfbelt then none
  else some
    (unused + (have_k.liquid - need_k.liquid)
      + (have_k.belt - need_k.belt + have_k.halfbelt - need_k.halfbelt),
     underused + min (have_k.belt - need_k.belt) need_k.halfbelt)

/-- `Processor.match_score`: `None` (no match) when the building is not allowed or
either signature check fails, else the `(unused, underused)` score, outputs checked
first as in the source. -/
def match_score (p : Processor) (building : String) (inputs outputs : InOutKinds) :
    Option (ℕ × ℕ) := do
  if building ∉ p.buildings then none
  else
    let (u1, d1) ← score_part p.outputs outputs 0 0
    score_part p.inputs inputs u1 d1

/-- Python tuple comparison `key(y) < key(best)` on match scores, as used by
`min(candidates, key=...)`; both keys are non-`None` for candidates. -/
def score_lt (a b : Option (ℕ × ℕ)) : Bool :=
  match a, b with
  | some s, some t => decide (s.1 < t.1 ∨ (s.1 = t.1 ∧ s.2 < t.2))
  | _, _ => false

/-- Python `min(x :: xs, key=...)` in first-minimum form: scan left to right,
replacing the current best only on a strict key decrease. -/
def py_min1 {α : Type} (ltb : α → α → Bool) (x : α) (xs : List α) : α :=
  xs.foldl (fun best y => if ltb y best then y else best) x

/-- `Processor.find_processor` over an explicit registry (`Processor.PROCESSORS` is
a module-level list populated at import time).  The Python filter is
`if processor.match_score(...)`: a score tuple — including `(0, 0)` — is a
non-empty tuple and hence truthy, so the filter keeps exactly the non-`None`
scores.  The `MATCH_CACHE` memoisation and the `FACTORIOCALC_PROCESSOR_MATCHES`
reporting are omitted: over a fixed registry the cache of a pure function is the
identity, and the reporting only prints. -/
def find_processor (registry : List Processor) (building : String)
    (inputs outputs : InOutKinds) : Except String Processor :=
  match registry.filter (fun p => (match_score p building inputs outputs).isSome) with
  | [] => .error "Could not find processor"
  | c :: rest => .ok (py_min1
      (fun p q => score_lt (match_score p building inputs outputs)
        (match_score q building inputs outputs)) c rest)

/-- The claim's spelling of "a processor matches": building allowed, liquid counts
equal exactly, `have.belts ≥ need.belts`, and remaining belts plus `have.halfbelts`
at least `need.halfbelts`, on both signatures. -/
def Matches (p : Processor) (building : String) (inputs outputs : InOutKinds) : Prop :=
  building ∈ p.buildings
  ∧ p.outputs.liquid = outputs.liquid ∧ p.inputs.liquid = inputs.liquid
  ∧ outputs.belt ≤ p.outputs.belt ∧ inputs.belt ≤ p.inputs.belt
  ∧ outputs.halfbelt ≤ p.outputs.belt - outputs.belt + p.outputs.halfbelt
  ∧ inputs.halfbelt ≤ p.inputs.belt - inputs.belt + p.inputs.halfbelt

instance (p : Processor) (building : String) (inputs outputs : InOutKinds) :
    Decidable (Matches p building inputs outputs) := by
  unfold Matches; infer_instance

theorem score_part_isSome (have_k need_k : InOutKinds) (u d : ℕ) :
    (score_part have_k need_k u d).isSome
      ↔ (have_k.liquid = need_k.liquid ∧ need_k.belt ≤ have_k.belt
          ∧ need_k.halfbelt ≤ have_k.belt - need_k.belt + have_k.halfbelt) := by
  unfold score_part
  split_ifs with h1 h2 h3 <;> simp <;> omega

theorem match_score_isSome_iff (p : Processor) (building : String)
    (inputs outputs : InOutKinds) :
    (match_score p building inputs outputs).isSome ↔ Matches p building inputs outputs := by
  by_cases hb : building ∈ p.buildings
  · simp only [match_score, Matches, hb, not_true_eq_false, if_false, true_and,
      Option.bind_eq_bind]
    unfold score_part
    split_ifs <;> simp_all
  · simp [match_score, hb, Matches]

theorem py_min1_mem {α : Type} (ltb : α → α → Bool) (x : α) (xs : List α) :
    py_min1 ltb x xs ∈ x :: xs := by
  induction xs generalizing x with
  | nil => simp [py_min1]
  | cons z zs ih =>
    have hstep : py_min1 ltb x (z :: zs) = py_min1 ltb (if ltb z x then z else x) zs := by
      unfold py_min1
      rw [List.foldl_cons]
    rw [hstep]
    by_cases hzx : ltb z x
    · rw [if_pos hzx]
      rcases List.mem_cons.mp (ih z) with h | h
      · rw [h]
        exact List.mem_cons_of_mem x (List.mem_cons_self z zs)
      · exact List.mem_cons_of_mem x (List.mem_cons_of_mem z h)
    · rw [if_neg hzx]
      rcases List.mem_cons.mp (ih x) with h | h
      · rw [h]
        exact List.mem_cons_self x (z :: zs)
      · exact List.mem_cons_of_mem x (List.mem_cons_of_mem z h)

theorem py_min1_not_lt {α : Type} (ltb : α → α → Bool) (P : α → Prop)
    (hirr : ∀ a, P a → ltb a a = false)
    (htrans : ∀ a b c, P a → P b → P c → ltb a b = true → ltb b c = true → ltb a c = true)
    (hneg : ∀ a b c, P a → P b → P c → ltb b a = false → ltb c b = false → ltb c a = false) :
    ∀ (x : α) (xs : List α), (∀ y ∈ x :: xs, P y) →
      ∀ y ∈ x :: xs, ltb y (py_min1 ltb x xs) = false := by
  intro x xs
  induction xs generalizing x with
  | nil =>
    intro hP y hy
    rw [List.mem_singleton] at hy
    rw [hy]
    unfold py_min1
    rw [List.foldl_nil]
    exact hirr x (hP x (List.mem_cons_self x []))
  | cons z zs ih =>
    intro hP y hy
    have hPx : P x := hP x (List.mem_cons_self x (z :: zs))
    have hPz : P z := hP z (List.mem_cons_of_mem x (List.mem_cons_self z zs))
    have hstep : py_min1 ltb x (z :: zs) = py_min1 ltb (if ltb z x then z else x) zs := by
      unfold py_min1
      rw [List.foldl_cons]
    rw [hstep]
    by_cases hzx : ltb z x
    · rw [if_pos hzx]
      have hPw : ∀ v ∈ z :: zs, P v := fun v hv => hP v (List.mem_cons_of_mem x hv)
      have hPm : P (py_min1 ltb z zs) := hPw _ (py_min1_mem ltb z zs)
      have hall := ih z hPw
      have hzm : ltb z (py_min1 ltb z zs) = false := hall z (List.mem_cons_self z zs)
      have hxm : ltb x (py_min1 ltb z zs) = false := by
        by_contra hlt
        rw [Bool.not_eq_false] at hlt
        have := htrans z x _ hPz hPx hPm hzx hlt
        rw [hzm] at this
        exact Bool.false_ne_true this
      rcases List.mem_cons.mp hy with h | h
      · rw [h]
        exact hxm
      · rcases List.mem_cons.mp h with h1 | h1
        · rw [h1]
          exact hzm
        · exact hall y (List.mem_cons_of_mem z h1)
    · rw [if_neg hzx]
      have hPw : ∀ v ∈ x :: zs, P v := by
        intro v hv
        rcases List.mem_cons.mp hv with h | h
        · rw [h]; exact hPx
        · exact hP v (List.mem_cons_of_mem x (List.mem_cons_of_mem z h))
      have hPm : P (py_min1 ltb x zs) := hPw _ (py_min1_mem ltb x zs)
      have hall := ih x hPw
      have hxm : ltb x (py_min1 ltb x zs) = false := hall x (List.mem_cons_self x zs)
      have hzm : ltb z (py_min1 ltb x zs) = false :=
        hneg _ x z hPm hPx hPz hxm (Bool.eq_false_iff.mpr hzx)
      rcases List.mem_cons.mp hy with h | h
      · rw [h]
        exact hxm
      · rcases List.mem_cons.mp h with h1 | h1
        · rw [h1]
          exact hzm
        · exact hall y (List.mem_cons_of_mem x h1)

/-- C1: for every building name and I/O signatures, when at least one registered
processor matches (building allowed, liquid counts equal exactly,
`have.belts ≥ need.belts`, and remaining belts plus `have.halfbelts` at least
`need.halfbelts`), `find_processor` returns a matching processor whose
`(unused_slots, underused_slots)` score is lexicographically minimal — including
when that minimal score is `(0, 0)` — and it fails with the no-processor error
exactly when no registered processor matches. -/
theorem find_processor_spec (registry : List Processor) (building : String)
    (inputs outputs : InOutKinds) :
    (∀ p, (match_score p building inputs outputs).isSome
        ↔ Matches p building inputs outputs)
    ∧ ((∃ p ∈ registry, Matches p building inputs outputs) →
        ∃ p s, find_processor registry building inputs outputs = .ok p
          ∧ p ∈ registry ∧ Matches p building inputs outputs
          ∧ match_score p building inputs outputs = some s
          ∧ ∀ q ∈ registry, ∀ t, match_score q building inputs outputs = some t →
              s.1 < t.1 ∨ (s.1 = t.1 ∧ s.2 ≤ t.2))
    ∧ ((∀ p ∈ registry, ¬ Matches p building inputs outputs) →
        find_processor registry building inputs outputs
          = .error "Could not find processor") := by
  refine ⟨fun p => match_score_isSome_iff p building inputs outputs, ?_, ?_⟩
  · intro ⟨p0, hp0reg, hp0m⟩
    have hp0some : (match_score p0 building inputs outputs).isSome :=
      (match_score_isSome_iff p0 building inputs outputs).mpr hp0m
    have hfilter : p0 ∈ registry.filter
        (fun p => (match_score p building inputs outputs).isSome) :=
      List.mem_filter.mpr ⟨hp0reg, by simpa using hp0some⟩
    set cand := registry.filter
      (fun p => (match_score p building inputs outputs).isSome) with hcand
    cases hc : cand with
    | nil =>
      rw [hc] at hfilter
      exact absurd hfilter (List.not_mem_nil p0)
    | cons c rest =>
      set ltb : Processor → Processor → Bool := fun p q =>
        score_lt (match_score p building inputs outputs)
          (match_score q building inputs outputs) with hltb
      have hfp : find_processor registry building inputs outputs
          = .ok (py_min1 ltb c rest) := by
        unfold find_processor
        rw [← hcand, hc]
      set m := py_min1 ltb c rest with hm
      have hmmem : m ∈ c :: rest := py_min1_mem ltb c rest
      have hmcand : m ∈ cand := hc ▸ hmmem
      have hmreg : m ∈ registry := (List.mem_filter.mp hmcand).1
      have hmsome : (match_score m building inputs outputs).isSome := by
        simpa using (List.mem_filter.mp hmcand).2
      obtain ⟨s, hs⟩ := Option.isSome_iff_exists.mp hmsome
      -- the strict key comparison is irreflexive, transitive and has transitive
      -- complement on candidates (whose scores are all `some`)
      have hP : ∀ y ∈ c :: rest, (match_score y building inputs outputs).isSome := by
        intro y hy
        have : y ∈ cand := hc ▸ hy
        simpa using (List.mem_filter.mp this).2
      have hnotlt := py_min1_not_lt ltb
        (fun y => (match_score y building inputs outputs).isSome)
        (by
          intro a ha
          obtain ⟨sa, hsa⟩ := Option.isSome_iff_exists.mp ha
          simp only [hltb, score_lt, hsa]
          simp)
        (by
          intro a b cc ha hb hcc hab hbc
          obtain ⟨sa, hsa⟩ := Option.isSome_iff_exists.mp ha
          obtain ⟨sb, hsb⟩ := Option.isSome_iff_exists.mp hb
          obtain ⟨sc, hsc⟩ := Option.isSome_iff_exists.mp hcc
          simp only [hltb, score_lt, hsa, hsb, hsc, decide_eq_true_eq] at *
          omega)
        (by
          intro a b cc ha hb hcc hab hbc
          obtain ⟨sa, hsa⟩ := Option.isSome_iff_exists.mp ha
          obtain ⟨sb, hsb⟩ := Option.isSome_iff_exists.mp hb
          obtain ⟨sc, hsc⟩ := Option.isSome_iff_exists.mp hcc
          simp only [hltb, score_lt, hsa, hsb, hsc, decide_eq_false_iff_not,
            decide_eq_true_eq] at *
          omega)
        c rest hP
      refine ⟨m, s, hfp, hmreg,
        (match_score_isSome_iff m building inputs outputs).mp hmsome, hs, ?_⟩
      intro q hqreg t hqt
      by_cases hqcand : q ∈ cand
      · have hqmem : q ∈ c :: rest := hc ▸ hqcand
        have hqlt := hnotlt q hqmem
        have hqlt2 : score_lt (match_score q building inputs outputs)
            (match_score m building inputs outputs) = false := hqlt
        rw [hqt, hs] at hqlt2
        simp only [score_lt, decide_eq_false_iff_not] at hqlt2
        omega
      · exact absurd (List.mem_filter.mpr ⟨hqreg, by simp [hqt]⟩) hqcand
  · intro hnone
    have hfilter : registry.filter
        (fun p => (match_score p building inputs outputs).isSome) = [] := by
      rw [List.filter_eq_nil_iff]
      intro p hp hsome
      exact hnone p hp ((match_score_isSome_iff p building inputs outputs).mp hsome)
    unfold find_processor
    rw [hfilter]

/-- Registry for the C1 witness: a 2-belt-in/1-out assembler processor and an exact
1-in/1-out one; on a 1-in/1-out query the scores are (1, 0) and (0, 0), and the
latter — a perfect score of (0, 0) — must win. -/
def proc_2in_1out : Processor := ⟨"assembler 2-1", ["assembler"], ⟨0, 2, 0⟩, ⟨0, 1, 0⟩⟩

def proc_1in_1out : Processor := ⟨"assembler 1-1", ["assembler"], ⟨0, 1, 0⟩, ⟨0, 1, 0⟩⟩

/-- Witness for C1 on a concrete registry, exercising a minimal score of (0, 0). -/
theorem find_processor_spec_witness :
    (∃ p ∈ [proc_2in_1out, proc_1in_1out], Matches p "assembler" ⟨0, 1, 0⟩ ⟨0, 1, 0⟩)
    ∧ ∃ p s, find_processor [proc_2in_1out, proc_1in_1out] "assembler" ⟨0, 1, 0⟩ ⟨0, 1, 0⟩
        = .ok p
      ∧ p ∈ [proc_2in_1out, proc_1in_1out] ∧ Matches p "assembler" ⟨0, 1, 0⟩ ⟨0, 1, 0⟩
      ∧ match_score p "assembler" ⟨0, 1, 0⟩ ⟨0, 1, 0⟩ = some s
      ∧ ∀ q ∈ [proc_2in_1out, proc_1in_1out], ∀ t,
          match_score q "assembler" ⟨0, 1, 0⟩ ⟨0, 1, 0⟩ = some t →
            s.1 < t.1 ∨ (s.1 = t.1 ∧ s.2 ≤ t.2) := by
  have hex : ∃ p ∈ [proc_2in_1out, proc_1in_1out],
      Matches p "assembler" ⟨0, 1, 0⟩ ⟨0, 1, 0⟩ :=
    ⟨proc_1in_1out, by simp, by decide⟩
  exact ⟨hex,
    (find_processor_spec [proc_2in_1out, proc_1in_1out] "assembler" ⟨0, 1, 0⟩ ⟨0, 1, 0⟩).2.1
      hex⟩

/-! ## beltmanager.py — `add_step` input selection (claim C6) -/

/-- The liquid-first rank of `inout_order`: `0 if is_liquid(item) else 1`. -/
def inout_rank (item : String) : ℕ := if is_liquid item then 0 else 1

/-- The sort order induced by `inout_order`'s key
`((0 if is_liquid(item) else 1), -throughput, item)` under ascending lexicographic
tuple comparison: liquids first, then throughput descending, ties by name
ascending. -/
def inout_le (a b : String × ℚ) : Prop :=
  inout_rank a.1 < inout_rank b.1
  ∨ (inout_rank a.1 = inout_rank b.1
      ∧ (b.2 < a.2 ∨ (a.2 = b.2 ∧ a.1 ≤ b.1)))

instance : DecidableRel inout_le := fun a b => by
  unfold inout_le
  infer_instance

theorem inout_le_total : ∀ a b, inout_le a b ∨ inout_le b a := by
  intro a b
  unfold inout_le
  rcases lt_trichotomy (inout_rank a.1) (inout_rank b.1) with h | h | h
  · exact Or.inl (Or.inl h)
  · rcases lt_trichotomy a.2 b.2 with h2 | h2 | h2
    · exact Or.inr (Or.inr ⟨h.symm, Or.inl h2⟩)
    · rcases le_total a.1 b.1 with h3 | h3
      · exact Or.inl (Or.inr ⟨h, Or.inr ⟨h2, h3⟩⟩)
      · exact Or.inr (Or.inr ⟨h.symm, Or.inr ⟨h2.symm, h3⟩⟩)
    · exact Or.inl (Or.inr ⟨h, Or.inl h2⟩)
  · exact Or.inr (Or.inl h)

theorem inout_le_trans : ∀ a b c, inout_le a b → inout_le b c → inout_le a c := by
  intro a b c hab hbc
  unfold inout_le at *
  rcases hab with h1 | ⟨h1, h2⟩
  · rcases hbc with g1 | ⟨g1, _⟩
    · exact Or.inl (by omega)
    · exact Or.inl (by omega)
  · rcases hbc with g1 | ⟨g1, g2⟩
    · exact Or.inl (by omega)
    · refine Or.inr ⟨by omega, ?_⟩
      rcases h2 with h2 | ⟨h2a, h2b⟩
      · rcases g2 with g2 | ⟨g2a, g2b⟩
        · exact Or.inl (lt_trans g2 h2)
        · exact Or.inl (g2a ▸ h2)
      · rcases g2 with g2 | ⟨g2a, g2b⟩
        · exact Or.inl (by rw [h2a]; exact g2)
        · exact Or.inr ⟨by rw [h2a, g2a], le_trans h2b g2b⟩

instance : IsTotal (String × ℚ) inout_le := ⟨inout_le_total⟩

instance : IsTrans (String × ℚ) inout_le := ⟨inout_le_trans⟩

/-- A step as seen by `BeltManager.add_step`: the process's `inputs()` and
`outputs()` dicts (item → total throughput), as association lists with distinct
keys. -/
structure Step where
  inputs : List (String × ℚ)
  outputs : List (String × ℚ)
deriving Repr, DecidableEq

/-- `beltmanager.Placement`. -/
structure Placement where
  bus : Bus
  width : ℕ
  process : Step
  inputs : List (ℕ × ℕ)
  outputs : List (ℕ × String × ℕ)
deriving Repr, DecidableEq

/-- The y-slot pool of `add_step`: `range(7)`, skipping slot 0 (reserved for bus
pumps) unless more than 6 slots are needed. -/
def y_slots (n_inputs n_outputs : ℕ) : List ℕ :=
  if n_inputs + n_outputs ≤ 6 then [1, 2, 3, 4, 5, 6] else [0, 1, 2, 3, 4, 5, 6]

/-- `min(lines, key=lambda (i, l): (l.throughput, -i))` in `add_step`: pick the
least-loaded matching line, falling back to the rightmost.  Python's `min` on an
empty sequence raises. -/
def pick_input_line (bus : Bus) (item : String) (t : ℚ) : Except String ℕ :=
  match find_lines bus item t with
  | [] => .error "ValueError: min() arg is an empty sequence"
  | c :: rest => .ok (py_min1 (fun a b : ℕ × Line =>
      decide (a.2.throughput < b.2.throughput
        ∨ (a.2.throughput = b.2.throughput ∧ b.1 < a.1))) c rest).1

/-- The `pick inputs` loop of `add_step`: for each `(y_slot, (item, throughput))`
pair, pick a source line and debit it with `line_take`. -/
def process_inputs (bus : Bus) :
    List (ℕ × String × ℚ) → Except String (List (ℕ × ℕ) × Bus)
  | [] => .ok ([], bus)
  | (y, item, t) :: rest => do
    let n ← pick_input_line bus item t
    let bus' ← line_take bus n t
    let (asn, bus'') ← process_inputs bus' rest
    .ok ((n, y) :: asn, bus'')

/-- The `pick outputs` loop of `add_step`: allocate a fresh line per output. -/
def process_outputs (bus : Bus) :
    List (ℕ × String × ℚ) → List (ℕ × String × ℕ) × Bus
  | [] => ([], bus)
  | (y, item, t) :: rest =>
    let r := add_line bus item t
    let rec_result := process_outputs r.2 rest
    ((r.1, item, y) :: rec_result.1, rec_result.2)

/-- `BeltManager.add_step`: sort inputs and outputs by `inout_order`, zip them with
the y-slot pool (outputs from the bottom), pick and debit source lines, allocate
output lines, check the source's three asserts, and emit the `Placement`.  Returns
the placement together with the mutated bus. -/
def add_step (step : Step) (bus : Bus) : Except String (Placement × Bus) := do
  let ys := y_slots step.inputs.length step.outputs.length
  let ins := List.insertionSort inout_le step.inputs
  let outs := List.insertionSort inout_le step.outputs
  let (inAsn, bus1) ← process_inputs bus ((ys.zip ins).map fun p => (p.1, p.2.1, p.2.2))
  if inAsn.length ≠ step.inputs.length then .error "AssertionError: inputs"
  else
    let outRes := process_outputs bus1 ((ys.reverse.zip outs).map fun p => (p.1, p.2.1, p.2.2))
    if outRes.1.length ≠ step.outputs.length then .error "AssertionError: outputs"
    else if (inAsn.map Prod.snd).inter (outRes.1.map fun o => o.2.2) ≠ [] then
      .error "AssertionError: inputs and outputs overlap"
    else .ok (⟨bus, max outRes.2.length bus.length, step, inAsn, outRes.1⟩, outRes.2)

theorem find_lines_mem (bus : Bus) (item : String) (t : ℚ) (i : ℕ) (l : Line) :
    (i, l) ∈ find_lines bus item t
      ↔ bus[i]? = some (some l) ∧ l.item = item ∧ t ≤ l.throughput := by
  unfold find_lines
  rw [List.mem_filterMap]
  constructor
  · intro ⟨a, ha, hfa⟩
    match a, ha, hfa with
    | (j, none), ha, hfa => exact absurd hfa (by simp)
    | (j, some m), ha, hfa =>
      simp only at hfa
      split at hfa
      case _ hcond =>
        simp only [Option.some.injEq, Prod.mk.injEq] at hfa
        obtain ⟨hj, hm⟩ := hfa
        subst hj hm
        rw [List.mk_mem_enum_iff_getElem?] at ha
        exact ⟨ha, hcond.1, hcond.2⟩
      · exact absurd hfa (by simp)
  · intro ⟨hget, hitem, ht⟩
    refine ⟨(i, some l), ?_, ?_⟩
    · rw [List.mk_mem_enum_iff_getElem?]
      exact hget
    · simp only
      rw [if_pos ⟨hitem, ht⟩]

theorem pick_input_line_spec (bus : Bus) (item : String) (t : ℚ) (n : ℕ)
    (h : pick_input_line bus item t = .ok n) :
    ∃ l, (n, l) ∈ find_lines bus item t
      ∧ ∀ q ∈ find_lines bus item t,
          l.throughput < q.2.throughput
          ∨ (l.throughput = q.2.throughput ∧ q.1 ≤ n) := by
  unfold pick_input_line at h
  set ltb : ℕ × Line → ℕ × Line → Bool := fun a b =>
    decide (a.2.throughput < b.2.throughput
      ∨ (a.2.throughput = b.2.throughput ∧ b.1 < a.1)) with hltb
  cases hfl : find_lines bus item t with
  | nil =>
    rw [hfl] at h
    exact absurd h (by simp)
  | cons c rest =>
    rw [hfl] at h
    simp only [Except.ok.injEq] at h
    have hmem : py_min1 ltb c rest ∈ c :: rest := py_min1_mem ltb c rest
    have hnotlt := py_min1_not_lt ltb (fun _ => True)
      (by
        intro a _
        simp [hltb])
      (by
        intro a b cc _ _ _ hab hbc
        simp only [hltb, decide_eq_true_eq] at *
        rcases hab with h1 | ⟨h1, h2⟩ <;> rcases hbc with g1 | ⟨g1, g2⟩
        · exact Or.inl (lt_trans h1 g1)
        · exact Or.inl (by rw [← g1]; exact h1)
        · exact Or.inl (by rw [h1]; exact g1)
        · exact Or.inr ⟨by rw [h1, g1], lt_trans g2 h2⟩)
      (by
        intro a b cc _ _ _ hba hcb
        simp only [hltb, decide_eq_false_iff_not] at *
        push_neg at hba hcb ⊢
        refine ⟨?_, ?_⟩
        · calc cc.2.throughput ≥ b.2.throughput := hcb.1
            _ ≥ a.2.throughput := hba.1
        · intro hca
          have hcb2 : cc.2.throughput = b.2.throughput :=
            le_antisymm (by rw [hca]; exact hba.1) hcb.1
          have hba2 : b.2.throughput = a.2.throughput := by
            rw [← hcb2]
            exact hca
          exact le_trans (hcb.2 hcb2) (hba.2 hba2))
      c rest (by intro y _; trivial)
    refine ⟨(py_min1 ltb c rest).2, ?_, ?_⟩
    · rw [← h]
      exact hmem
    · intro q hq
      have := hnotlt q hq
      simp only [hltb, decide_eq_false_iff_not] at this
      push_neg at this
      rw [← h]
      rcases lt_trichotomy (py_min1 ltb c rest).2.throughput q.2.throughput with h1 | h1 | h1
      · exact Or.inl h1
      · exact Or.inr ⟨h1, this.2 h1.symm⟩
      · exact absurd h1 (not_lt.mpr this.1)

/-- The claim's description of one serviced input: the chosen line is, among all bus
lines carrying the item with enough remaining throughput, the one with least
remaining throughput (ties to the rightmost), and exactly the required throughput
is debited — the slot emptying when it reaches zero, with trailing gaps popped. -/
inductive InputRun : Bus → List (ℕ × String × ℚ) → List (ℕ × ℕ) → Bus → Prop where
  | nil (bus : Bus) : InputRun bus [] [] bus
  | cons {bus bus'' : Bus} {y : ℕ} {item : String} {t : ℚ} {n : ℕ}
      {rest : List (ℕ × String × ℚ)} {asn : List (ℕ × ℕ)} (l : Line) :
      (n, l) ∈ find_lines bus item t →
      (∀ q ∈ find_lines bus item t,
        l.throughput < q.2.throughput
        ∨ (l.throughput = q.2.throughput ∧ q.1 ≤ n)) →
      InputRun (pop_trailing (bus.set n (if l.throughput - t = 0 then none
        else some { l with throughput := l.throughput - t }))) rest asn bus'' →
      InputRun bus ((y, item, t) :: rest) ((n, y) :: asn) bus''

theorem process_inputs_run (pairs : List (ℕ × String × ℚ)) :
    ∀ (bus : Bus) (asn : List (ℕ × ℕ)) (bus' : Bus),
      process_inputs bus pairs = .ok (asn, bus') → InputRun bus pairs asn bus' := by
  induction pairs with
  | nil =>
    intro bus asn bus' h
    simp only [process_inputs, Except.ok.injEq, Prod.mk.injEq] at h
    rw [← h.1, ← h.2]
    exact InputRun.nil bus
  | cons p rest ih =>
    intro bus asn bus' h
    obtain ⟨y, item, t⟩ := p
    rw [process_inputs] at h
    cases hpick : pick_input_line bus item t with
    | error e =>
      rw [hpick] at h
      exact absurd h (by simp [Bind.bind, Except.bind])
    | ok n =>
      rw [hpick] at h
      simp only [Bind.bind, Except.bind] at h
      cases htake : line_take bus n t with
      | error e =>
        rw [htake] at h
        exact absurd h (by simp)
      | ok bus1 =>
        rw [htake] at h
        simp only at h
        cases hrec : process_inputs bus1 rest with
        | error e =>
          rw [hrec] at h
          exact absurd h (by simp)
        | ok pr =>
          rw [hrec] at h
          obtain ⟨asn1, bus2⟩ := pr
          simp only [Except.ok.injEq, Prod.mk.injEq] at h
          obtain ⟨hasn, hbus⟩ := h
          obtain ⟨l, hlmem, hlmin⟩ := pick_input_line_spec bus item t n hpick
          have hget : bus[n]? = some (some l) := ((find_lines_mem bus item t n l).mp hlmem).1
          have hle : t ≤ l.throughput := ((find_lines_mem bus item t n l).mp hlmem).2.2
          have htake2 : bus1 = pop_trailing (bus.set n (if l.throughput - t = 0 then none
              else some { l with throughput := l.throughput - t })) := by
            simp only [line_take, hget] at htake
            rw [if_neg (by linarith)] at htake
            simp only [Except.ok.injEq] at htake
            exact htake.symm
          rw [← hasn, ← hbus]
          exact InputRun.cons l hlmem hlmin (htake2 ▸ ih bus1 asn1 bus2 hrec)

/-- C6: in `add_step`, the inputs are processed in the order (liquids first, then
descending throughput, ties by ascending item name), and each input's source line
is, among all bus lines carrying that item with at least the required throughput,
the one with least remaining throughput (ties broken by the rightmost), from which
exactly the required throughput is debited. -/
theorem add_step_input_selection (step : Step) (bus : Bus) (pl : Placement)
    (bus2 : Bus) (h : add_step step bus = .ok (pl, bus2)) :
    ∃ ins bus1,
      ins.Perm step.inputs
      ∧ List.Sorted inout_le ins
      ∧ InputRun bus
          (((y_slots step.inputs.length step.outputs.length).zip ins).map
            fun p => (p.1, p.2.1, p.2.2))
          pl.inputs bus1
      ∧ pl.bus = bus ∧ pl.process = step := by
  rw [add_step] at h
  cases hpi : process_inputs bus
      (((y_slots step.inputs.length step.outputs.length).zip
        (List.insertionSort inout_le step.inputs)).map fun p => (p.1, p.2.1, p.2.2)) with
  | error e =>
    rw [hpi] at h
    exact absurd h (by simp [Bind.bind, Except.bind])
  | ok pr =>
    rw [hpi] at h
    simp only [Bind.bind, Except.bind] at h
    obtain ⟨inAsn, bus1⟩ := pr
    simp only at h
    refine ⟨List.insertionSort inout_le step.inputs, bus1,
      List.perm_insertionSort inout_le step.inputs,
      List.sorted_insertionSort inout_le step.inputs, ?_, ?_, ?_⟩
    · split at h
      · exact absurd h (by simp)
      · split at h
        · exact absurd h (by simp)
        · split at h
          · exact absurd h (by simp)
          · simp only [Except.ok.injEq, Prod.mk.injEq] at h
            have hpl : pl.inputs = inAsn := by rw [← h.1]
            rw [hpl]
            exact process_inputs_run _ bus inAsn bus1 hpi
    · split at h
      · exact absurd h (by simp)
      · split at h
        · exact absurd h (by simp)
        · split at h
          · exact absurd h (by simp)
          · simp only [Except.ok.injEq, Prod.mk.injEq] at h
            rw [← h.1]
    · split at h
      · exact absurd h (by simp)
      · split at h
        · exact absurd h (by simp)
        · split at h
          · exact absurd h (by simp)
          · simp only [Except.ok.injEq, Prod.mk.injEq] at h
            rw [← h.1]

/-- Concrete data for the C6 witness: a gear step consuming 2/sec of iron plates,
over a bus with two iron-plate lines (5/sec and 3/sec); the 3/sec line is less
loaded and must be chosen and debited to 1/sec. -/
def gear_step : Step := ⟨[("iron plate", 2)], [("gear", 1)]⟩

def gear_bus : Bus := [some ⟨"iron plate", 5⟩, some ⟨"iron plate", 3⟩]

def gear_placement : Placement := ⟨gear_bus, 3, gear_step, [(1, 1)], [(2, "gear", 6)]⟩

def gear_bus_after : Bus :=
  [some ⟨"iron plate", 5⟩, some ⟨"iron plate", 1⟩, some ⟨"gear", 1⟩]

/-- Concrete evaluation of `add_step` on the gear step: the 3/sec iron-plate line is
chosen (less loaded than the 5/sec one) and debited to 1/sec, and a gear line is
allocated in the widened slot. -/
theorem gear_add_step_eval :
    add_step gear_step gear_bus = .ok (gear_placement, gear_bus_after) := by
  norm_num [add_step, gear_step, gear_bus, gear_placement, gear_bus_after, y_slots,
    process_inputs, process_outputs, pick_input_line, find_lines, py_min1, line_take,
    add_line, pop_trailing, Bind.bind, Except.bind, List.enum, List.enumFrom,
    List.insertionSort, List.orderedInsert, inout_le, inout_rank, is_liquid,
    List.filterMap, List.foldl, List.zip, List.zipWith, List.inter]
  simp [List.findIdx, List.findIdx.go]

/-- Witness for C6 at a concrete step and bus. -/
theorem add_step_input_selection_witness :
    add_step gear_step gear_bus = .ok (gear_placement, gear_bus_after)
    ∧ ∃ ins bus1,
        ins.Perm gear_step.inputs
        ∧ List.Sorted inout_le ins
        ∧ InputRun gear_bus
            (((y_slots gear_step.inputs.length gear_step.outputs.length).zip ins).map
              fun p => (p.1, p.2.1, p.2.2))
            gear_placement.inputs bus1
        ∧ gear_placement.bus = gear_bus ∧ gear_placement.process = gear_step := by
  have heval : add_step gear_step gear_bus = .ok (gear_placement, gear_bus_after) :=
    gear_add_step_eval
  exact ⟨heval,
    add_step_input_selection gear_step gear_bus gear_placement gear_bus_after heval⟩

/-! ## beltmanager.py — `compact` (claims C2 and C10) -/

/-- `beltmanager.Compaction`: the bus event recording merges and shifts. -/
structure Compaction where
  bus : Bus
  width : ℕ
  compactions : List (ℕ × ℕ)
  shifts : List (ℕ × ℕ)
deriving Repr, DecidableEq

/-- The leftward scan of `compact`'s shift branch:
`shift_to = position; while shift_to > 0 and self.bus[shift_to - 1] is None:
shift_to -= 1`. -/
def scan_shift (bus : Bus) : ℕ → ℕ
  | 0 => 0
  | n + 1 => match bus[n]? with
    | some none => scan_shift bus n
    | _ => n + 1

/-- The candidate list of `compact`: lines strictly left of `position` carrying the
same item that are not full. -/
def compact_candidates (bt : BeltType) (bus : Bus) (position : ℕ) (item : String) :
    List (ℕ × Line) :=
  (bus.take position).enum.filterMap fun p =>
    match p.2 with
    | some line =>
      if line.item = item ∧ line.throughput < line_limit line.item bt
        then some (p.1, line) else none
    | none => none

/-- `min(candidates, key=lambda (i, line): (line.throughput, -i))`: least loaded
first, then rightmost. -/
def pick_dest (c : ℕ × Line) (rest : List (ℕ × Line)) : ℕ × Line :=
  py_min1 (fun a b : ℕ × Line =>
    decide (a.2.throughput < b.2.throughput
      ∨ (a.2.throughput = b.2.throughput ∧ b.1 < a.1))) c rest

/-- One iteration of `compact`'s `while position > 0` loop at `position`, returning
the mutated bus, the next position, and the accumulated compaction/shift records:
* a gap just steps left;
* with candidates, merge into the best destination — fully (via `line_take`,
  deleting the source) when the sum fits the line limit, else fill the destination
  to the limit and keep the reduced source (after the source's
  `assert new_source.throughput < limit`);
* with no candidate, shift into the first empty slot scanned to the left, if any.
-/
def compact_body (bt : BeltType) (bus : Bus) (position : ℕ) (cs ss : List (ℕ × ℕ)) :
    Except String (Bus × ℕ × List (ℕ × ℕ) × List (ℕ × ℕ)) :=
  match bus[position]? with
  | none => .error "IndexError"
  | some none => .ok (bus, position - 1, cs, ss)
  | some (some source) =>
    match compact_candidates bt bus position source.item with
    | c :: rest =>
      match pick_dest c rest with
      | (dest_pos, dest) =>
        if line_limit dest.item bt < dest.throughput + source.throughput then
          if line_limit dest.item bt
              ≤ dest.throughput + source.throughput - line_limit dest.item bt then
            .error "AssertionError: new_source.throughput < limit"
          else
            .ok ((bus.set position (some ⟨source.item,
                dest.throughput + source.throughput - line_limit dest.item bt⟩)).set
                dest_pos (some ⟨dest.item, line_limit dest.item bt⟩),
              dest_pos - 1, cs ++ [(dest_pos, position)], ss)
        else do
          let bus2 ← line_take (bus.set dest_pos
              (some ⟨dest.item, dest.throughput + source.throughput⟩))
            position source.throughput
          .ok (bus2, dest_pos - 1, cs ++ [(dest_pos, position)], ss)
    | [] =>
      if scan_shift bus position ≠ position then do
        let bus2 ← line_take (bus.set (scan_shift bus position) (some source))
          position source.throughput
        .ok (bus2, scan_shift bus position - 1, cs,
          ss ++ [(position, scan_shift bus position)])
      else .ok (bus, position - 1, cs, ss)

theorem scan_shift_le (bus : Bus) : ∀ n, scan_shift bus n ≤ n := by
  intro n
  induction n with
  | zero => exact le_refl 0
  | succ n ih =>
    rw [scan_shift]
    split
    · exact le_trans ih (Nat.le_succ n)
    · exact le_refl _

theorem scan_shift_none (bus : Bus) :
    ∀ n, scan_shift bus n ≠ n → bus[scan_shift bus n]? = some none := by
  intro n
  induction n with
  | zero => intro h; exact absurd rfl h
  | succ n ih =>
    intro h
    rw [scan_shift] at h ⊢
    cases hb : bus[n]? with
    | none =>
      simp only [hb] at h
      exact absurd rfl h
    | some o =>
      cases o with
      | none =>
        simp only [hb] at h ⊢
        by_cases h2 : scan_shift bus n = n
        · rw [h2]
          exact hb
        · exact ih h2
      | some l =>
        simp only [hb] at h
        exact absurd rfl h

theorem compact_candidates_mem (bt : BeltType) (bus : Bus) (position : ℕ)
    (item : String) (i : ℕ) (l : Line)
    (h : (i, l) ∈ compact_candidates bt bus position item) :
    i < position ∧ bus[i]? = some (some l) ∧ l.item = item
      ∧ l.throughput < line_limit l.item bt := by
  unfold compact_candidates at h
  rw [List.mem_filterMap] at h
  obtain ⟨a, ha, hfa⟩ := h
  match a, ha, hfa with
  | (j, none), ha, hfa => exact absurd hfa (by simp)
  | (j, some m), ha, hfa =>
    simp only at hfa
    split at hfa
    case _ hcond =>
      simp only [Option.some.injEq, Prod.mk.injEq] at hfa
      obtain ⟨hj, hm⟩ := hfa
      subst hj hm
      rw [List.mk_mem_enum_iff_getElem?] at ha
      have hlen : j < (bus.take position).length :=
        (List.getElem?_eq_some_iff.mp ha).1
      rw [List.length_take] at hlen
      have hip : j < position := lt_of_lt_of_le hlen (min_le_left _ _)
      rw [List.getElem?_take_of_lt hip] at ha
      exact ⟨hip, ha, hcond.1, hcond.2⟩
    · exact absurd hfa (by simp)

theorem pick_dest_mem (c : ℕ × Line) (rest : List (ℕ × Line)) :
    pick_dest c rest ∈ c :: rest :=
  py_min1_mem _ c rest

theorem compact_body_pos_lt (bt : BeltType) (bus : Bus) (position : ℕ)
    (cs ss : List (ℕ × ℕ)) (bus' : Bus) (pos' : ℕ) (cs' ss' : List (ℕ × ℕ))
    (hpos : 0 < position)
    (h : compact_body bt bus position cs ss = .ok (bus', pos', cs', ss')) :
    pos' < position := by
  rw [compact_body] at h
  split at h
  · exact absurd h (by simp)
  · simp only [Except.ok.injEq, Prod.mk.injEq] at h
    omega
  case _ source hsrc =>
    split at h
    case _ c rest hcand =>
      rcases hpd : pick_dest c rest with ⟨dest_pos, dest⟩
      have hdp : dest_pos < position := by
        have hmem : (dest_pos, dest) ∈ c :: rest := hpd ▸ pick_dest_mem c rest
        rw [← hcand] at hmem
        exact (compact_candidates_mem bt bus position source.item dest_pos dest hmem).1
      rw [hpd] at h
      dsimp only at h
      by_cases hlt : line_limit dest.item bt < dest.throughput + source.throughput
      · rw [if_pos hlt] at h
        by_cases hassert : line_limit dest.item bt
            ≤ dest.throughput + source.throughput - line_limit dest.item bt
        · rw [if_pos hassert] at h
          exact absurd h (by simp)
        · rw [if_neg hassert] at h
          simp only [Except.ok.injEq, Prod.mk.injEq] at h
          omega
      · rw [if_neg hlt] at h
        simp only [Bind.bind, Except.bind] at h
        cases htake : line_take (bus.set dest_pos
            (some ⟨dest.item, dest.throughput + source.throughput⟩))
            position source.throughput with
        | error e =>
          rw [htake] at h
          exact absurd h (by simp)
        | ok bus2 =>
          rw [htake] at h
          simp only [Except.ok.injEq, Prod.mk.injEq] at h
          omega
    case _ hcand =>
      by_cases hshift : scan_shift bus position ≠ position
      case pos =>
        rw [if_pos hshift] at h
        have hle : scan_shift bus position ≤ position := scan_shift_le bus position
        simp only [Bind.bind, Except.bind] at h
        cases htake : line_take (bus.set (scan_shift bus position) (some source))
            position source.throughput with
        | error e =>
          rw [htake] at h
          exact absurd h (by simp)
        | ok bus2 =>
          rw [htake] at h
          simp only [Except.ok.injEq, Prod.mk.injEq] at h
          omega
      case neg =>
        rw [if_neg hshift] at h
        simp only [Except.ok.injEq, Prod.mk.injEq] at h
        omega

/-- The `while position > 0` loop of `BeltManager.compact`, with the iteration body
factored into `compact_body`.  The loop terminates because the body strictly
decreases `position`. -/
def compact_loop (bt : BeltType) (bus : Bus) (position : ℕ) (cs ss : List (ℕ × ℕ)) :
    Except String (Bus × List (ℕ × ℕ) × List (ℕ × ℕ)) :=
  if hp : position = 0 then .ok (bus, cs, ss)
  else
    match hb : compact_body bt bus position cs ss with
    | .error e => .error e
    | .ok (bus', pos', cs', ss') => compact_loop bt bus' pos' cs' ss'
termination_by position
decreasing_by
exact compact_body_pos_lt bt bus position cs ss bus' pos' cs' ss' (Nat.pos_of_ne_zero hp) hb

/-- `BeltManager.compact`: snapshot the bus, run the greedy right-to-left pass from
`len(bus) - 1`, raise `"Could not compact bus any further"` when no compaction was
recorded (even if shifts were), else emit the single `Compaction` event.  Returns
the mutated bus together with the event. -/
def compact (bt : BeltType) (bus : Bus) : Except String (Bus × Compaction) := do
  let (bus2, cs, ss) ← compact_loop bt bus (bus.length - 1) [] []
  if cs = [] then .error "Could not compact bus any further"
  else .ok (bus2, ⟨bus, bus.length, cs, ss⟩)

/-! ### A potential function for the compaction pass

Every merge and shift moves throughput strictly leftward, so the index-weighted
total throughput strictly decreases whenever the pass records anything.  This is
how we prove that a recorded pass really changed the bus. -/

/-- Throughput of a bus slot (0 for a gap). -/
def slot_tp : Option Line → ℚ
  | none => 0
  | some l => l.throughput

/-- Index-weighted throughput, with indices starting at `i`. -/
def phi_aux : ℕ → Bus → ℚ
  | _, [] => 0
  | i, o :: rest => i * slot_tp o + phi_aux (i + 1) rest

/-- The potential: index-weighted total throughput of the bus. -/
def phi (bus : Bus) : ℚ := phi_aux 0 bus

theorem phi_aux_append (l m : Bus) : ∀ i, phi_aux i (l ++ m) = phi_aux i l + phi_aux (i + l.length) m := by
  induction l with
  | nil => intro i; simp [phi_aux]
  | cons o rest ih =>
    intro i
    rw [List.cons_append, phi_aux, phi_aux, ih (i + 1)]
    simp only [List.length_cons]
    ring_nf

theorem phi_aux_none (m : Bus) (hm : ∀ o ∈ m, o = none) : ∀ i, phi_aux i m = 0 := by
  induction m with
  | nil => intro i; rfl
  | cons o rest ih =>
    intro i
    rw [phi_aux, hm o (List.mem_cons_self o rest)]
    rw [ih (fun o ho => hm o (List.mem_cons_of_mem _ ho)) (i + 1)]
    simp [slot_tp]

theorem phi_pop_trailing (bus : Bus) : phi (pop_trailing bus) = phi bus := by
  obtain ⟨suf, hsplit, hnone⟩ := pop_trailing_split bus
  unfold phi
  conv_rhs => rw [hsplit]
  rw [phi_aux_append, phi_aux_none suf hnone]
  ring

theorem phi_aux_set (v : Option Line) :
    ∀ (bus : Bus) (i n : ℕ), n < bus.length →
      phi_aux i (bus.set n v)
        = phi_aux i bus - ((i + n : ℕ) : ℚ) * slot_tp (bus.getD n none)
          + ((i + n : ℕ) : ℚ) * slot_tp v := by
  intro bus
  induction bus with
  | nil => intro i n hn; simp at hn
  | cons o rest ih =>
    intro i n hn
    cases n with
    | zero =>
      simp only [List.set_cons_zero, phi_aux, List.getD_cons_zero, Nat.add_zero]
      ring
    | succ n =>
      simp only [List.set_cons_succ, phi_aux, List.getD_cons_succ]
      rw [ih (i + 1) n (by simpa using hn)]
      have : ((i + 1 + n : ℕ) : ℚ) = ((i + (n + 1) : ℕ) : ℚ) := by
        push_cast
        ring
      rw [this]
      ring

theorem phi_set (bus : Bus) (n : ℕ) (v : Option Line) (hn : n < bus.length) :
    phi (bus.set n v)
      = phi bus - (n : ℚ) * slot_tp (bus.getD n none) + (n : ℚ) * slot_tp v := by
  unfold phi
  rw [phi_aux_set v bus 0 n hn]
  norm_num

theorem line_take_phi (bus : Bus) (n : ℕ) (t : ℚ) (bus' : Bus)
    (h : line_take bus n t = .ok bus') : phi bus' = phi bus - n * t := by
  unfold line_take at h
  split at h
  · exact absurd h (by simp)
  · exact absurd h (by simp)
  case _ line hget =>
    split at h
    · exact absurd h (by simp)
    case _ hneg =>
      simp only [Except.ok.injEq] at h
      subst h
      have hn : n < bus.length := (List.getElem?_eq_some_iff.mp hget).1
      have hgetD : bus.getD n none = some line := by
        rw [List.getD_eq_getElem?_getD, hget]
        rfl
      rw [phi_pop_trailing, phi_set bus n _ hn, hgetD]
      have htp : slot_tp (if line.throughput - t = 0 then none
          else some { line with throughput := line.throughput - t }) = line.throughput - t := by
        split
        case _ hz => rw [slot_tp, ← hz]
        case _ hz => rfl
      rw [htp, slot_tp]
      ring

theorem getLast_set_some (bus : Bus) (n : ℕ) (x : Line) (hn : n < bus.length)
    (h : bus.getLast? ≠ some none) : (bus.set n (some x)).getLast? ≠ some none := by
  rw [List.getLast?_eq_getElem?, List.length_set]
  by_cases hlast : n = bus.length - 1
  · rw [← hlast, List.getElem?_set_self (by omega)]
    simp
  · rw [List.getElem?_set_ne hlast]
    rw [← List.getLast?_eq_getElem?]
    exact h

theorem compact_body_spec (bt : BeltType) (bus : Bus) (position : ℕ)
    (cs ss : List (ℕ × ℕ)) (bus' : Bus) (pos' : ℕ) (cs' ss' : List (ℕ × ℕ))
    (hwf : BusWF bus)
    (h : compact_body bt bus position cs ss = .ok (bus', pos', cs', ss')) :
    BusWF bus' ∧ phi bus' ≤ phi bus
    ∧ ((cs', ss') ≠ (cs, ss) → phi bus' < phi bus) := by
  rw [compact_body] at h
  split at h
  · exact absurd h (by simp)
  · -- gap: step left, nothing recorded
    simp only [Except.ok.injEq, Prod.mk.injEq] at h
    obtain ⟨h1, _, h3, h4⟩ := h
    subst h1 h3 h4
    exact ⟨hwf, le_refl _, fun hne => absurd rfl hne⟩
  case _ source hsrc =>
    have hsrc_mem : some source ∈ bus := List.getElem?_mem hsrc
    have hsrc_pos : 0 < source.throughput := hwf.1 _ hsrc_mem source rfl
    have hlen_pos : position < bus.length := (List.getElem?_eq_some_iff.mp hsrc).1
    split at h
    case _ c rest hcand =>
      rcases hpd : pick_dest c rest with ⟨dest_pos, dest⟩
      have hmem : (dest_pos, dest) ∈ c :: rest := hpd ▸ pick_dest_mem c rest
      rw [← hcand] at hmem
      obtain ⟨hdp, hdget, hditem, hdlim⟩ :=
        compact_candidates_mem bt bus position source.item dest_pos dest hmem
      have hdest_mem : some dest ∈ bus := List.getElem?_mem hdget
      have hdest_pos : 0 < dest.throughput := hwf.1 _ hdest_mem dest rfl
      have hlen_dp : dest_pos < bus.length := lt_trans hdp hlen_pos
      have hgetD_dp : bus.getD dest_pos none = some dest := by
        rw [List.getD_eq_getElem?_getD, hdget]
        rfl
      have hgetD_pos : bus.getD position none = some source := by
        rw [List.getD_eq_getElem?_getD, hsrc]
        rfl
      have hne_dp : dest_pos ≠ position := Nat.ne_of_lt hdp
      rw [hpd] at h
      dsimp only at h
      by_cases hlt : line_limit dest.item bt < dest.throughput + source.throughput
      · -- partial fill: both lines stay, destination tops up to the limit
        rw [if_pos hlt] at h
        by_cases hassert : line_limit dest.item bt
            ≤ dest.throughput + source.throughput - line_limit dest.item bt
        · rw [if_pos hassert] at h
          exact absurd h (by simp)
        · rw [if_neg hassert] at h
          simp only [Except.ok.injEq, Prod.mk.injEq] at h
          obtain ⟨h1, _, h3, h4⟩ := h
          subst h1 h3 h4
          have hwf1 : BusWF (bus.set position (some ⟨source.item,
              dest.throughput + source.throughput - line_limit dest.item bt⟩)) := by
            constructor
            · intro o ho l hl
              rcases List.mem_or_eq_of_mem_set ho with ho1 | ho2
              · exact hwf.1 o ho1 l hl
              · subst ho2
                cases hl
                simp only
                linarith
            · exact getLast_set_some bus position _ hlen_pos hwf.2
          have hwfr : BusWF ((bus.set position (some ⟨source.item,
              dest.throughput + source.throughput - line_limit dest.item bt⟩)).set dest_pos
              (some ⟨dest.item, line_limit dest.item bt⟩)) := by
            constructor
            · intro o ho l hl
              rcases List.mem_or_eq_of_mem_set ho with ho1 | ho2
              · exact hwf1.1 o ho1 l hl
              · subst ho2
                cases hl
                exact line_limit_pos _ _
            · exact getLast_set_some _ dest_pos _ (by simpa using hlen_dp) hwf1.2
          have hphi1 : phi (bus.set position (some ⟨source.item,
              dest.throughput + source.throughput - line_limit dest.item bt⟩))
              = phi bus - position * source.throughput
                + position * (dest.throughput + source.throughput - line_limit dest.item bt) := by
            rw [phi_set bus position _ hlen_pos, hgetD_pos]
            rfl
          have hgetD1 : (bus.set position (some ⟨source.item,
              dest.throughput + source.throughput - line_limit dest.item bt⟩)).getD
              dest_pos none = some dest := by
            rw [List.getD_eq_getElem?_getD, List.getElem?_set_ne (Ne.symm hne_dp), hdget]
            rfl
          have hphi2 : phi ((bus.set position (some ⟨source.item,
              dest.throughput + source.throughput - line_limit dest.item bt⟩)).set dest_pos
              (some ⟨dest.item, line_limit dest.item bt⟩))
              = phi (bus.set position (some ⟨source.item,
                  dest.throughput + source.throughput - line_limit dest.item bt⟩))
                - dest_pos * dest.throughput + dest_pos * line_limit dest.item bt := by
            rw [phi_set _ dest_pos _ (by simpa using hlen_dp), hgetD1]
            rfl
          have hstrict : phi ((bus.set position (some ⟨source.item,
              dest.throughput + source.throughput - line_limit dest.item bt⟩)).set dest_pos
              (some ⟨dest.item, line_limit dest.item bt⟩)) < phi bus := by
            rw [hphi2, hphi1]
            have hc : (dest_pos : ℚ) < (position : ℚ) := by exact_mod_cast hdp
            nlinarith [mul_lt_mul_of_pos_right hc
              (show (0 : ℚ) < line_limit dest.item bt - dest.throughput by linarith)]
          exact ⟨hwfr, le_of_lt hstrict, fun _ => hstrict⟩
      · -- full merge: destination absorbs the source, source line deleted
        rw [if_neg hlt] at h
        simp only [Bind.bind, Except.bind] at h
        cases htake : line_take (bus.set dest_pos
            (some ⟨dest.item, dest.throughput + source.throughput⟩))
            position source.throughput with
        | error e =>
          rw [htake] at h
          exact absurd h (by simp)
        | ok bus2 =>
          rw [htake] at h
          simp only [Except.ok.injEq, Prod.mk.injEq] at h
          obtain ⟨h1, _, h3, h4⟩ := h
          subst h1 h3 h4
          have hwf1 : BusWF (bus.set dest_pos
              (some ⟨dest.item, dest.throughput + source.throughput⟩)) := by
            constructor
            · intro o ho l hl
              rcases List.mem_or_eq_of_mem_set ho with ho1 | ho2
              · exact hwf.1 o ho1 l hl
              · subst ho2
                cases hl
                simp only
                linarith
            · exact getLast_set_some bus dest_pos _ hlen_dp hwf.2
          have hwfr := line_take_wf _ position source.throughput _ hwf1 htake
          have hphi1 : phi (bus.set dest_pos
              (some ⟨dest.item, dest.throughput + source.throughput⟩))
              = phi bus - dest_pos * dest.throughput
                + dest_pos * (dest.throughput + source.throughput) := by
            rw [phi_set bus dest_pos _ hlen_dp, hgetD_dp]
            rfl
          have hphi2 := line_take_phi _ position source.throughput _ htake
          have hstrict : phi bus2 < phi bus := by
            rw [hphi2, hphi1]
            have hc : (dest_pos : ℚ) < (position : ℚ) := by exact_mod_cast hdp
            nlinarith [mul_lt_mul_of_pos_right hc hsrc_pos]
          exact ⟨hwfr, le_of_lt hstrict, fun _ => hstrict⟩
    case _ hcand =>
      by_cases hshift : scan_shift bus position ≠ position
      case pos =>
        rw [if_pos hshift] at h
        have hk_le : scan_shift bus position ≤ position := scan_shift_le bus position
        have hk_lt : scan_shift bus position < position := lt_of_le_of_ne hk_le hshift
        have hk_none : bus[scan_shift bus position]? = some none :=
          scan_shift_none bus position hshift
        have hk_len : scan_shift bus position < bus.length := lt_trans hk_lt hlen_pos
        have hgetD_k : bus.getD (scan_shift bus position) none = none := by
          rw [List.getD_eq_getElem?_getD, hk_none]
          rfl
        simp only [Bind.bind, Except.bind] at h
        cases htake : line_take (bus.set (scan_shift bus position) (some source))
            position source.throughput with
        | error e =>
          rw [htake] at h
          exact absurd h (by simp)
        | ok bus2 =>
          rw [htake] at h
          simp only [Except.ok.injEq, Prod.mk.injEq] at h
          obtain ⟨h1, _, h3, h4⟩ := h
          subst h1 h3 h4
          have hwf1 : BusWF (bus.set (scan_shift bus position) (some source)) := by
            constructor
            · intro o ho l hl
              rcases List.mem_or_eq_of_mem_set ho with ho1 | ho2
              · exact hwf.1 o ho1 l hl
              · subst ho2
                cases hl
                exact hsrc_pos
            · exact getLast_set_some bus _ source hk_len hwf.2
          have hwfr := line_take_wf _ position source.throughput _ hwf1 htake
          have hphi1 : phi (bus.set (scan_shift bus position) (some source))
              = phi bus - (scan_shift bus position) * (0 : ℚ)
                + (scan_shift bus position) * source.throughput := by
            rw [phi_set bus _ _ hk_len, hgetD_k]
            rfl
          have hphi2 := line_take_phi _ position source.throughput _ htake
          have hstrict : phi bus2 < phi bus := by
            rw [hphi2, hphi1]
            have hc : ((scan_shift bus position : ℕ) : ℚ) < (position : ℚ) := by
              exact_mod_cast hk_lt
            nlinarith [mul_lt_mul_of_pos_right hc hsrc_pos]
          exact ⟨hwfr, le_of_lt hstrict, fun _ => hstrict⟩
      case neg =>
        rw [if_neg hshift] at h
        simp only [Except.ok.injEq, Prod.mk.injEq] at h
        obtain ⟨h1, _, h3, h4⟩ := h
        subst h1 h3 h4
        exact ⟨hwf, le_refl _, fun hne => absurd rfl hne⟩

theorem compact_loop_spec (bt : BeltType) :
    ∀ (position : ℕ) (bus : Bus) (cs ss : List (ℕ × ℕ)) (bus' : Bus)
      (cs' ss' : List (ℕ × ℕ)), BusWF bus →
      compact_loop bt bus position cs ss = .ok (bus', cs', ss') →
      BusWF bus' ∧ phi bus' ≤ phi bus
      ∧ ((cs', ss') ≠ (cs, ss) → phi bus' < phi bus) := by
  intro position
  induction position using Nat.strong_induction_on with
  | _ position ih =>
    intro bus cs ss bus' cs' ss' hwf h
    rw [compact_loop] at h
    split at h
    · simp only [Except.ok.injEq, Prod.mk.injEq] at h
      obtain ⟨h1, h3, h4⟩ := h
      subst h1 h3 h4
      exact ⟨hwf, le_refl _, fun hne => absurd rfl hne⟩
    case _ hp =>
      split at h
      · exact absurd h (by simp)
      case _ bus1 pos1 cs1 ss1 hb =>
        have hlt := compact_body_pos_lt bt bus position cs ss bus1 pos1 cs1 ss1
          (Nat.pos_of_ne_zero hp) hb
        obtain ⟨hwf1, hle1, hstrict1⟩ :=
          compact_body_spec bt bus position cs ss bus1 pos1 cs1 ss1 hwf hb
        obtain ⟨hwf', hle', hstrict'⟩ := ih pos1 hlt bus1 cs1 ss1 bus' cs' ss' hwf1 h
        refine ⟨hwf', le_trans hle' hle1, ?_⟩
        intro hne
        by_cases he : (cs1, ss1) = (cs, ss)
        · have := hstrict' (by rw [he]; exact hne)
          linarith
        · have := hstrict1 he
          linarith

/-- One unfolding step of `compact_loop` when the body succeeds. -/
theorem compact_loop_step (bt : BeltType) (bus : Bus) (position : ℕ)
    (cs ss : List (ℕ × ℕ)) (bus1 : Bus) (pos1 : ℕ) (cs1 ss1 : List (ℕ × ℕ))
    (hp : position ≠ 0)
    (hb : compact_body bt bus position cs ss = .ok (bus1, pos1, cs1, ss1)) :
    compact_loop bt bus position cs ss = compact_loop bt bus1 pos1 cs1 ss1 := by
  rw [compact_loop, dif_neg hp]
  split
  case _ e he =>
    rw [hb] at he
    exact absurd he (by simp)
  case _ b p c d hb2 =>
    rw [hb] at hb2
    simp only [Except.ok.injEq, Prod.mk.injEq] at hb2
    obtain ⟨h1, h2, h3, h4⟩ := hb2
    rw [h1, h2, h3, h4]

/-- A bus on which `compact` can only shift: a gap followed by a single line. -/
def stuck_bus : Bus := [none, some ⟨"iron plate", 5⟩]

theorem stuck_body_eval :
    compact_body .blue stuck_bus 1 [] []
      = .ok ([some ⟨"iron plate", 5⟩], 0, [], [(1, 0)]) := by
  norm_num [compact_body, stuck_bus, compact_candidates, scan_shift,
    pick_dest, py_min1, line_take, pop_trailing, line_limit, is_liquid,
    Bind.bind, Except.bind, List.enum, List.enumFrom, List.filterMap]

theorem stuck_loop_eval :
    compact_loop .blue stuck_bus 1 [] []
      = .ok ([some ⟨"iron plate", 5⟩], [], [(1, 0)]) := by
  rw [compact_loop_step .blue stuck_bus 1 [] [] _ _ _ _ (by omega) stuck_body_eval]
  rw [compact_loop, dif_pos rfl]

/-- C2 counterexample: on `stuck_bus` the greedy pass performs one shift (recorded
as `(1, 0)`) and no merge; the bus changes (the line moves into the gap and the
bus shrinks), yet `compact` raises the stuck-bus error — against the claim that an
invocation with at least one shift does not raise. -/
theorem compact_shift_only_raises :
    compact_loop .blue stuck_bus (stuck_bus.length - 1) [] []
      = .ok ([some ⟨"iron plate", 5⟩], [], [(1, 0)])
    ∧ ([some ⟨"iron plate", 5⟩] : Bus) ≠ stuck_bus
    ∧ compact .blue stuck_bus = .error "Could not compact bus any further" := by
  have hlen : stuck_bus.length - 1 = 1 := rfl
  refine ⟨by rw [hlen]; exact stuck_loop_eval, by simp [stuck_bus], ?_⟩
  rw [compact, hlen, stuck_loop_eval]
  rfl

/-- C2 (amended): whenever `compact` runs it performs its right-to-left greedy
pass; when at least one compaction (merge) was recorded it appends exactly one
`Compaction` event recording the compactions and shifts performed, and it raises
the stuck-bus error if and only if no compaction was recorded — even when one or
more shifts were performed; any recorded compaction or shift has nonetheless
changed the bus. -/
theorem compact_amended_spec (bt : BeltType) (bus bus2 : Bus)
    (cs ss : List (ℕ × ℕ)) (hwf : BusWF bus)
    (hloop : compact_loop bt bus (bus.length - 1) [] [] = .ok (bus2, cs, ss)) :
    (cs = [] → compact bt bus = .error "Could not compact bus any further")
    ∧ (cs ≠ [] → compact bt bus = .ok (bus2, ⟨bus, bus.length, cs, ss⟩))
    ∧ (cs ≠ [] ∨ ss ≠ [] → bus2 ≠ bus) := by
  have hred : compact bt bus
      = if cs = [] then .error "Could not compact bus any further"
        else .ok (bus2, ⟨bus, bus.length, cs, ss⟩) := by
    rw [compact, hloop]
    rfl
  refine ⟨fun hcs => by rw [hred, if_pos hcs], fun hcs => by rw [hred, if_neg hcs], ?_⟩
  intro hne hbus
  obtain ⟨_, _, hstrict⟩ :=
    compact_loop_spec bt (bus.length - 1) bus [] [] bus2 cs ss hwf hloop
  have hlt : phi bus2 < phi bus := by
    apply hstrict
    intro hcon
    simp only [Prod.mk.injEq] at hcon
    rcases hne with hne | hne
    · exact hne hcon.1
    · exact hne hcon.2
  rw [hbus] at hlt
  exact lt_irrefl _ hlt

theorem stuck_bus_wf : BusWF stuck_bus := by
  constructor
  · intro o ho l hl
    rcases List.mem_cons.mp ho with h | h
    · rw [h] at hl
      exact absurd hl (by simp)
    · rw [List.mem_singleton] at h
      rw [h] at hl
      cases hl
      norm_num
  · simp [stuck_bus]

/-- Witness for C2's amended claim at the concrete shift-only bus. -/
theorem compact_amended_spec_witness :
    (BusWF stuck_bus
      ∧ compact_loop .blue stuck_bus (stuck_bus.length - 1) [] []
          = .ok ([some ⟨"iron plate", 5⟩], [], [(1, 0)]))
    ∧ (([] : List (ℕ × ℕ)) = []
        → compact .blue stuck_bus = .error "Could not compact bus any further")
    ∧ (([] : List (ℕ × ℕ)) ≠ [] ∨ ([(1, 0)] : List (ℕ × ℕ)) ≠ []
        → ([some ⟨"iron plate", 5⟩] : Bus) ≠ stuck_bus) := by
  have hloop : compact_loop .blue stuck_bus (stuck_bus.length - 1) [] []
      = .ok ([some ⟨"iron plate", 5⟩], [], [(1, 0)]) := by
    have hlen : stuck_bus.length - 1 = 1 := rfl
    rw [hlen]
    exact stuck_loop_eval
  obtain ⟨h1, _, h3⟩ :=
    compact_amended_spec .blue stuck_bus [some ⟨"iron plate", 5⟩] [] [(1, 0)]
      stuck_bus_wf hloop
  exact ⟨⟨stuck_bus_wf, hloop⟩, h1, h3⟩

/-! ## The bus well-formedness invariant (claim C10) -/

/-- The input-servicing loop of `add_step` preserves bus well-formedness. -/
theorem process_inputs_wf (pairs : List (ℕ × String × ℚ)) :
    ∀ (bus : Bus) (asn : List (ℕ × ℕ)) (bus' : Bus), BusWF bus →
      process_inputs bus pairs = .ok (asn, bus') → BusWF bus' := by
  induction pairs with
  | nil =>
    intro bus asn bus' hwf h
    simp only [process_inputs, Except.ok.injEq, Prod.mk.injEq] at h
    rw [← h.2]
    exact hwf
  | cons p rest ih =>
    intro bus asn bus' hwf h
    obtain ⟨y, item, t⟩ := p
    rw [process_inputs] at h
    cases hpick : pick_input_line bus item t with
    | error e =>
      rw [hpick] at h
      exact absurd h (by simp [Bind.bind, Except.bind])
    | ok n =>
      rw [hpick] at h
      simp only [Bind.bind, Except.bind] at h
      cases htake : line_take bus n t with
      | error e =>
        rw [htake] at h
        exact absurd h (by simp)
      | ok bus1 =>
        rw [htake] at h
        simp only at h
        cases hrec : process_inputs bus1 rest with
        | error e =>
          rw [hrec] at h
          exact absurd h (by simp)
        | ok pr =>
          rw [hrec] at h
          obtain ⟨asn1, bus2⟩ := pr
          simp only [Except.ok.injEq, Prod.mk.injEq] at h
          rw [← h.2]
          exact ih bus1 asn1 bus2 (line_take_wf bus n t bus1 hwf htake) hrec

/-- The output-allocating loop of `add_step` preserves bus well-formedness when every
allocated throughput is positive. -/
theorem process_outputs_wf (pairs : List (ℕ × String × ℚ)) :
    ∀ bus : Bus, BusWF bus → (∀ p ∈ pairs, 0 < p.2.2) →
      BusWF (process_outputs bus pairs).2 := by
  induction pairs with
  | nil =>
    intro bus hwf _
    exact hwf
  | cons p rest ih =>
    intro bus hwf hpos
    obtain ⟨y, item, t⟩ := p
    simp only [process_outputs]
    exact ih (add_line bus item t).2
      (add_line_wf bus item t hwf (hpos (y, item, t) (List.mem_cons_self _ _)))
      (fun q hq => hpos q (List.mem_cons_of_mem _ hq))

/-- A successful `add_step` over a well-formed bus, with all step outputs positive,
yields a well-formed bus. -/
theorem add_step_wf (step : Step) (bus : Bus) (pl : Placement) (bus2 : Bus)
    (hwf : BusWF bus) (hout : ∀ q ∈ step.outputs, 0 < q.2)
    (h : add_step step bus = .ok (pl, bus2)) : BusWF bus2 := by
  rw [add_step] at h
  cases hpi : process_inputs bus
      (((y_slots step.inputs.length step.outputs.length).zip
        (List.insertionSort inout_le step.inputs)).map fun p => (p.1, p.2.1, p.2.2)) with
  | error e =>
    rw [hpi] at h
    exact absurd h (by simp [Bind.bind, Except.bind])
  | ok pr =>
    rw [hpi] at h
    simp only [Bind.bind, Except.bind] at h
    obtain ⟨inAsn, bus1⟩ := pr
    simp only at h
    have hwf1 : BusWF bus1 := process_inputs_wf _ bus inAsn bus1 hwf hpi
    have hwf2 : BusWF (process_outputs bus1
        (((y_slots step.inputs.length step.outputs.length).reverse.zip
          (List.insertionSort inout_le step.outputs)).map
            fun p => (p.1, p.2.1, p.2.2))).2 := by
      apply process_outputs_wf _ bus1 hwf1
      intro q hq
      rw [List.mem_map] at hq
      obtain ⟨a, ha, hqa⟩ := hq
      have hsort : a.2 ∈ List.insertionSort inout_le step.outputs := (List.of_mem_zip ha).2
      have hmem : a.2 ∈ step.outputs :=
        (List.perm_insertionSort inout_le step.outputs).mem_iff.mp hsort
      rw [← hqa]
      exact hout a.2 hmem
    split at h
    · exact absurd h (by simp)
    · split at h
      · exact absurd h (by simp)
      · split at h
        · exact absurd h (by simp)
        · simp only [Except.ok.injEq, Prod.mk.injEq] at h
          rw [← h.2]
          exact hwf2

/-- C10: bus well-formedness is an invariant of every belt-manager operation.  On a
well-formed bus — every occupied slot strictly positive, no trailing empty slot — a
successful `line_take` yields a well-formed bus (a line reaching zero becomes an
empty slot and trailing empties are popped), `add_line` with positive throughput
yields a well-formed bus, a successful compaction pass yields a well-formed bus, and
a successful `add_step` whose step outputs are all positive yields a well-formed
bus; `line_take` additionally rejects taking from an empty slot and taking more than
the line holds. -/
theorem bus_wf_invariant (bus : Bus) (hwf : BusWF bus) :
    (∀ (n : ℕ) (t : ℚ) (bus' : Bus), line_take bus n t = .ok bus' → BusWF bus')
    ∧ (∀ (item : String) (t : ℚ), 0 < t → BusWF (add_line bus item t).2)
    ∧ (∀ (bt : BeltType) (bus' : Bus) (cs ss : List (ℕ × ℕ)),
        compact_loop bt bus (bus.length - 1) [] [] = .ok (bus', cs, ss) → BusWF bus')
    ∧ (∀ (step : Step) (pl : Placement) (bus2 : Bus), (∀ q ∈ step.outputs, 0 < q.2) →
        add_step step bus = .ok (pl, bus2) → BusWF bus2)
    ∧ (∀ (n : ℕ) (t : ℚ), bus[n]? = some none
        → line_take bus n t = .error "Taking from empty line")
    ∧ (∀ (n : ℕ) (t : ℚ) (l : Line), bus[n]? = some (some l) → l.throughput < t
        → line_take bus n t = .error "Took too much from line") := by
  refine ⟨?_, ?_, ?_, ?_, ?_, ?_⟩
  · intro n t bus' h
    exact line_take_wf bus n t bus' hwf h
  · intro item t ht
    exact add_line_wf bus item t hwf ht
  · intro bt bus' cs ss h
    exact (compact_loop_spec bt (bus.length - 1) bus [] [] bus' cs ss hwf h).1
  · intro step pl bus2 hout h
    exact add_step_wf step bus pl bus2 hwf hout h
  · intro n t hget
    unfold line_take
    rw [hget]
  · intro n t l hget hlt
    unfold line_take
    rw [hget]
    simp only
    rw [if_pos (by linarith)]

/-- Witness for C10 on concrete buses: the gear bus for `line_take`, `add_line`,
`add_step` and the error cases, and the shift-only bus for a compaction pass. -/
theorem bus_wf_invariant_witness :
    (BusWF gear_bus
      ∧ line_take gear_bus 1 3 = .ok [some ⟨"iron plate", 5⟩]
      ∧ BusWF [some ⟨"iron plate", 5⟩]
      ∧ BusWF (add_line gear_bus "gear" 1).2
      ∧ add_step gear_step gear_bus = .ok (gear_placement, gear_bus_after)
      ∧ BusWF gear_bus_after
      ∧ line_take gear_bus 0 6 = .error "Took too much from line"
      ∧ line_take stuck_bus 0 1 = .error "Taking from empty line")
    ∧ (BusWF stuck_bus
      ∧ compact_loop .blue stuck_bus (stuck_bus.length - 1) [] []
          = .ok ([some ⟨"iron plate", 5⟩], [], [(1, 0)])
      ∧ BusWF ([some ⟨"iron plate", 5⟩] : Bus)) := by
  have hwfg : BusWF gear_bus := by decide
  have hwfs : BusWF stuck_bus := by decide
  have htake : line_take gear_bus 1 3 = .ok [some ⟨"iron plate", 5⟩] := by
    norm_num [line_take, gear_bus, pop_trailing]
  have hstep : add_step gear_step gear_bus = .ok (gear_placement, gear_bus_after) :=
    gear_add_step_eval
  have hloop : compact_loop .blue stuck_bus (stuck_bus.length - 1) [] []
      = .ok ([some ⟨"iron plate", 5⟩], [], [(1, 0)]) := by
    have hlen : stuck_bus.length - 1 = 1 := rfl
    rw [hlen]
    exact stuck_loop_eval
  obtain ⟨hg1, hg2, hg3, hg4, hg5, hg6⟩ := bus_wf_invariant gear_bus hwfg
  obtain ⟨_, _, hs3, _, hs5, _⟩ := bus_wf_invariant stuck_bus hwfs
  refine ⟨⟨hwfg, htake, hg1 1 3 _ htake, hg2 "gear" 1 (by norm_num), hstep,
    hg4 gear_step gear_placement gear_bus_after (by decide) hstep, ?_, ?_⟩,
    hwfs, hloop, hs3 .blue _ [] [(1, 0)] hloop⟩
  · exact hg6 0 6 ⟨"iron plate", 5⟩ rfl (by norm_num)
  · exact hs5 0 1 rfl

end Factoriocalc